import Mathlib

set_option maxRecDepth 100000

/-!
# Verification of the SIDH field-arithmetic layer (`fpx.c`)

Shallow embedding of the field operations over the prime p751 and its quadratic
extension GF(p751^2) from the source file `fpx.c`, together with the
constant-time selection/swap primitives.

Two levels of modelling are used, matching how the source manipulates data:

* a *value level*, where a field element (`felm_t`, a little-endian array of 12
  64-bit digits) is represented by the natural number it denotes; the external
  kernels `mp_mul` and `rdc_mont` and the base-field primitives `fpadd751`,
  `fpsub751`, `fpneg751`, `fpdiv2_751` are not part of the source file and are
  modelled from their contracts in the specification;
* a *digit level* (`felmD`, a function `Fin 12 → ℕ`), used for the operations
  whose behaviour is genuinely digit-wise: `is_felm_zero`, `is_felm_lt`,
  `swap_points`, `swap_points_basefield` and `select_f2elm`.
-/

/-- Number of 64-bit digits of a field element (`NWORDS_FIELD` in the source). -/
def NWORDS_FIELD : Nat := 12

/-- Value of a little-endian list of 64-bit words. -/
def wordsVal : List Nat → Nat
  | [] => 0
  | w :: ws => w + 2 ^ 64 * wordsVal ws

/-- The 12 words of the prime constant `p751`, transcribed from `fpx.c` lines 16-17. -/
def p751words : List Nat :=
  [0xFFFFFFFFFFFFFFFF, 0xFFFFFFFFFFFFFFFF, 0xFFFFFFFFFFFFFFFF, 0xFFFFFFFFFFFFFFFF,
   0xFFFFFFFFFFFFFFFF, 0xEEAFFFFFFFFFFFFF, 0xE3EC968549F878A8, 0xDA959B1A13F7CC76,
   0x084E9867D6EBE876, 0x8562B5045CB25748, 0x0E12909F97BADC66, 0x00006FE5D541F71C]

/-- The 12 words of the constant `p751p1` (= p751 + 1), `fpx.c` lines 18-19. -/
def p751p1words : List Nat :=
  [0x0000000000000000, 0x0000000000000000, 0x0000000000000000, 0x0000000000000000,
   0x0000000000000000, 0xEEB0000000000000, 0xE3EC968549F878A8, 0xDA959B1A13F7CC76,
   0x084E9867D6EBE876, 0x8562B5045CB25748, 0x0E12909F97BADC66, 0x00006FE5D541F71C]

/-- The 12 words of the constant `Montgomery_R2` (= R² mod p751, R = 2^768),
`fpx.c` lines 20-21. -/
def Montgomery_R2words : List Nat :=
  [0x233046449DAD4058, 0xDB010161A696452A, 0x5E36941472E3FD8E, 0xF40BFE2082A2E706,
   0x4932CCA8904F8751, 0x1F735F1F1EE7FC81, 0xA24F4D80C1048E18, 0xB56C383CCDB607C5,
   0x441DD47B735F9C90, 0x5673ED2C6A6AC82A, 0x06C905261132294B, 0x000041AD830F1F35]

/-- The prime p751 as a natural number. -/
def p751 : Nat := wordsVal p751words

/-- The constant p751 + 1 as a natural number. -/
def p751p1 : Nat := wordsVal p751p1words

/-- The Montgomery constant R² mod p751 as a natural number. -/
def Montgomery_R2 : Nat := wordsVal Montgomery_R2words

/-- The Montgomery radix R = 2^(64·NWORDS_FIELD) = 2^768. -/
def R751 : Nat := 2 ^ 768

/-- The modular inverse of R = 2^768 modulo p751 (a fixed constant used to model
the contract of the external Montgomery-reduction kernel). -/
def Rinv751 : Nat := 1518725603824737389819053798918035007730761831988339415201705393383230549778130460683426736321139507281132743779724182711261647601379839529950740166978024981554536824910527087746254630334120179536606671225338947864384536159295

/-! ## Spec-modelled external primitives

The raw multiprecision multiplication kernel, the Montgomery reduction kernel
and the reduced base-field primitives are declared in `SIDH_internal.h` and
implemented outside `fpx.c`; the specification describes them as an "opaque,
constant-time, correctly-reducing arithmetic backend".  They are modelled here
at the value level from the contracts stated in the specification. -/

/-- Modelled from the spec: `raw_multiply(a, b) -> double-width product`
(`mp_mul` in the source) — the full double-width integer multiply of two
NWORDS_FIELD-digit operands, i.e. the exact product of the denoted values. -/
def mp_mul (a b : Nat) : Nat := a * b

/-- Modelled from the spec: `montgomery_reduce(double-width) -> single-width`
(`rdc_mont` in the source) — reduces a double-width value modulo p751 using the
Montgomery constant, returning t·R⁻¹ mod p751, a value < p751. -/
def rdc_mont (t : Nat) : Nat := t * Rinv751 % p751

/-- Modelled from the spec: base-field `add` (`fpadd751`) — modular addition
producing a reduced value. -/
def fpadd751 (a b : Nat) : Nat := (a + b) % p751

/-- Modelled from the spec: base-field `sub` (`fpsub751`) — modular subtraction
producing a reduced value (contract: operands reduced, so `b ≤ p751`). -/
def fpsub751 (a b : Nat) : Nat := (a + p751 - b) % p751

/-- Modelled from the spec: base-field `negate` (`fpneg751`) — modular negation
producing a reduced value (contract: operand reduced, so `a ≤ p751`). -/
def fpneg751 (a : Nat) : Nat := (p751 - a) % p751

/-- Modelled from the spec: base-field `halve` (`fpdiv2_751`) — modular division
by two of a reduced value. -/
def fpdiv2_751 (a : Nat) : Nat := (if a % 2 = 1 then a + p751 else a) / 2

/-- Value-level model of `mp_add` (`fpx.c` lines 122-131): ripple-carry addition
of two nwords-digit values built from the external `ADDC` digit primitive;
returns the truncated sum together with the carry-out bit. -/
def mp_add (a b nwords : Nat) : Nat × Nat :=
  ((a + b) % 2 ^ (64 * nwords), (a + b) / 2 ^ (64 * nwords))

/-- Value-level model of `mp_sub` (`fpx.c` lines 110-119): ripple-borrow
subtraction of two nwords-digit values built from the external `SUBC` digit
primitive; returns the wrapped difference together with the borrow-out bit. -/
def mp_sub (a b nwords : Nat) : Nat × Nat :=
  ((a + 2 ^ (64 * nwords) - b) % 2 ^ (64 * nwords), if a < b then 1 else 0)

/-! ## Montgomery base-field layer (`fpx.c` lines 47-67 and 183-198) -/

/-- `fpmul751_mont` (`fpx.c` lines 183-189): Montgomery multiplication,
raw double-width multiply followed by Montgomery reduction. -/
def fpmul751_mont (ma mb : Nat) : Nat := rdc_mont (mp_mul ma mb)

/-- `fpsqr751_mont` (`fpx.c` lines 192-198): Montgomery squaring. -/
def fpsqr751_mont (ma : Nat) : Nat := rdc_mont (mp_mul ma ma)

/-- `to_mont` (`fpx.c` lines 47-57): conversion to Montgomery representation,
`mc = a·R²·R⁻¹ mod p751`. -/
def to_mont (a : Nat) : Nat := fpmul751_mont a Montgomery_R2

/-- `from_mont` (`fpx.c` lines 60-67): conversion from Montgomery
representation, `c = ma·1·R⁻¹ mod p751`. -/
def from_mont (ma : Nat) : Nat := fpmul751_mont ma 1

/-! ## Field inversion (`fpx.c` lines 201-453)

`fpinv751_mont` computes `a = a⁻¹·R mod p751` through a hardcoded addition
chain: a table `t[0..26]` of odd powers of the input, followed by a fixed
schedule of squaring bursts, each followed by one multiplication by a table
entry (or once by the input itself), and a repeated tail.  The chain is first
transcribed literally, then re-expressed as a fixed schedule consumed by a
small interpreter; the two forms are definitionally equal. -/

/-- Literal unrolled transcription of the `fpinv751_mont` body (`fpx.c` lines
201-453), generic over the multiplication: instantiated at `fpmul751_mont`
(note `fpsqr751_mont x` and `fpmul751_mont x x` are definitionally equal) it
is the source chain; instantiated over (ℕ, +) it computes the realised
exponent, cross-checked below against the schedule form.  Overwritten table
slots (`t[3]`, `t[9]`, `t[21]`, `t[25]`) are modelled by shadowing lets; each
`for`-loop of k squarings is a k-fold iterate, and the final 61-iteration loop
is unrolled into its first iteration followed by a 60-fold iterate. -/
def invChainUnrolled {α : Type} (m : α → α → α) (a : α) : α :=
  let tt := m a a
  let t0 := m a tt
  let t1 := m t0 tt
  let t2 := m t1 tt
  let t3 := m t2 tt
  let t3 := m t3 tt
  let t4 := m t3 tt
  let t5 := m t4 tt
  let t6 := m t5 tt
  let t7 := m t6 tt
  let t8 := m t7 tt
  let t9 := m t8 tt
  let t9 := m t9 tt
  let t10 := m t9 tt
  let t11 := m t10 tt
  let t12 := m t11 tt
  let t13 := m t12 tt
  let t14 := m t13 tt
  let t15 := m t14 tt
  let t16 := m t15 tt
  let t17 := m t16 tt
  let t18 := m t17 tt
  let t19 := m t18 tt
  let t20 := m t19 tt
  let t21 := m t20 tt
  let t21 := m t21 tt
  let t22 := m t21 tt
  let t23 := m t22 tt
  let t24 := m t23 tt
  let t25 := m t24 tt
  let t25 := m t25 tt
  let t26 := m t25 tt
  let tt := a
  let tt := m t20 ((fun x => m x x)^[6] tt)
  let tt := m t24 ((fun x => m x x)^[6] tt)
  let tt := m t11 ((fun x => m x x)^[6] tt)
  let tt := m t8 ((fun x => m x x)^[6] tt)
  let tt := m t2 ((fun x => m x x)^[8] tt)
  let tt := m t23 ((fun x => m x x)^[6] tt)
  let tt := m t2 ((fun x => m x x)^[6] tt)
  let tt := m t2 ((fun x => m x x)^[9] tt)
  let tt := m t15 ((fun x => m x x)^[10] tt)
  let tt := m t13 ((fun x => m x x)^[8] tt)
  let tt := m t26 ((fun x => m x x)^[8] tt)
  let tt := m t20 ((fun x => m x x)^[8] tt)
  let tt := m t11 ((fun x => m x x)^[6] tt)
  let tt := m t10 ((fun x => m x x)^[6] tt)
  let tt := m t14 ((fun x => m x x)^[6] tt)
  let tt := m t4 ((fun x => m x x)^[6] tt)
  let tt := m t18 ((fun x => m x x)^[10] tt)
  let tt := m t1 ((fun x => m x x)^[6] tt)
  let tt := m t22 ((fun x => m x x)^[7] tt)
  let tt := m t6 ((fun x => m x x)^[10] tt)
  let tt := m t24 ((fun x => m x x)^[7] tt)
  let tt := m t9 ((fun x => m x x)^[6] tt)
  let tt := m t18 ((fun x => m x x)^[8] tt)
  let tt := m t17 ((fun x => m x x)^[6] tt)
  let tt := m a ((fun x => m x x)^[8] tt)
  let tt := m t16 ((fun x => m x x)^[10] tt)
  let tt := m t7 ((fun x => m x x)^[6] tt)
  let tt := m t0 ((fun x => m x x)^[6] tt)
  let tt := m t12 ((fun x => m x x)^[7] tt)
  let tt := m t19 ((fun x => m x x)^[7] tt)
  let tt := m t22 ((fun x => m x x)^[6] tt)
  let tt := m t25 ((fun x => m x x)^[6] tt)
  let tt := m t2 ((fun x => m x x)^[7] tt)
  let tt := m t10 ((fun x => m x x)^[6] tt)
  let tt := m t22 ((fun x => m x x)^[7] tt)
  let tt := m t18 ((fun x => m x x)^[8] tt)
  let tt := m t4 ((fun x => m x x)^[6] tt)
  let tt := m t14 ((fun x => m x x)^[6] tt)
  let tt := m t13 ((fun x => m x x)^[7] tt)
  let tt := m t5 ((fun x => m x x)^[6] tt)
  let tt := m t23 ((fun x => m x x)^[6] tt)
  let tt := m t21 ((fun x => m x x)^[6] tt)
  let tt := m t2 ((fun x => m x x)^[6] tt)
  let tt := m t23 ((fun x => m x x)^[7] tt)
  let tt := m t12 ((fun x => m x x)^[8] tt)
  let tt := m t9 ((fun x => m x x)^[6] tt)
  let tt := m t3 ((fun x => m x x)^[6] tt)
  let tt := m t13 ((fun x => m x x)^[7] tt)
  let tt := m t17 ((fun x => m x x)^[7] tt)
  let tt := m t26 ((fun x => m x x)^[8] tt)
  let tt := m t5 ((fun x => m x x)^[8] tt)
  let tt := m t8 ((fun x => m x x)^[8] tt)
  let tt := m t11 ((fun x => m x x)^[8] tt)
  let tt := m t22 ((fun x => m x x)^[6] tt)
  let tt := (fun x => m x x)^[7] tt
  let tt := (fun x => m x x)^[6] (m t26 tt)
  let tt := (fun x => (fun y => m y y)^[6] (m t26 x))^[60] tt
  m t25 tt

/-- The literal unrolled transcription of `fpinv751_mont`. -/
def fpinv751_mont_unrolled (a : Nat) : Nat := invChainUnrolled fpmul751_mont a

/-- Multiplier operand of one step of the inversion chain: a precomputed table
entry `t[i]` or the original input `a`. -/
inductive InvMult where
  | tbl (i : Fin 27)
  | inp

/-- One squaring expressed with an abstract binary operation. -/
def sqOp (m : α → α → α) (x : α) : α := m x x

/-- The precomputed table `t[0..26]` of `fpinv751_mont` (`fpx.c` lines
206-225), with the multiplication abstracted, listing the final value of every
slot. -/
def invTable (m : α → α → α) (a : α) : List α :=
  let tt := sqOp m a
  let t0 := m a tt
  let t1 := m t0 tt
  let t2 := m t1 tt
  let t3 := m t2 tt
  let t3 := m t3 tt
  let t4 := m t3 tt
  let t5 := m t4 tt
  let t6 := m t5 tt
  let t7 := m t6 tt
  let t8 := m t7 tt
  let t9 := m t8 tt
  let t9 := m t9 tt
  let t10 := m t9 tt
  let t11 := m t10 tt
  let t12 := m t11 tt
  let t13 := m t12 tt
  let t14 := m t13 tt
  let t15 := m t14 tt
  let t16 := m t15 tt
  let t17 := m t16 tt
  let t18 := m t17 tt
  let t19 := m t18 tt
  let t20 := m t19 tt
  let t21 := m t20 tt
  let t21 := m t21 tt
  let t22 := m t21 tt
  let t23 := m t22 tt
  let t24 := m t23 tt
  let t25 := m t24 tt
  let t25 := m t25 tt
  let t26 := m t25 tt
  [t0, t1, t2, t3, t4, t5, t6, t7, t8, t9, t10, t11, t12, t13,
   t14, t15, t16, t17, t18, t19, t20, t21, t22, t23, t24, t25, t26]

/-- Resolve a step multiplier to its value. -/
def invMultVal (m : α → α → α) (a : α) : InvMult → α
  | .tbl i => (invTable m a).getD i.val a
  | .inp => a

/-- The schedule of the main chain of `fpinv751_mont` (`fpx.c` lines 227-452):
each entry `(k, w)` is a burst of k squarings followed by one multiplication by
`w`; the final loop of 61 iterations becomes the tail `(7, t26)`,
60 × `(6, t26)`, `(6, t25)`. -/
def invSteps : List (Nat × InvMult) :=
  [(6, .tbl 20), (6, .tbl 24), (6, .tbl 11), (6, .tbl 8), (8, .tbl 2),
   (6, .tbl 23), (6, .tbl 2), (9, .tbl 2), (10, .tbl 15), (8, .tbl 13),
   (8, .tbl 26), (8, .tbl 20), (6, .tbl 11), (6, .tbl 10), (6, .tbl 14),
   (6, .tbl 4), (10, .tbl 18), (6, .tbl 1), (7, .tbl 22), (10, .tbl 6),
   (7, .tbl 24), (6, .tbl 9), (8, .tbl 18), (6, .tbl 17), (8, .inp),
   (10, .tbl 16), (6, .tbl 7), (6, .tbl 0), (7, .tbl 12), (7, .tbl 19),
   (6, .tbl 22), (6, .tbl 25), (7, .tbl 2), (6, .tbl 10), (7, .tbl 22),
   (8, .tbl 18), (6, .tbl 4), (6, .tbl 14), (7, .tbl 13), (6, .tbl 5),
   (6, .tbl 23), (6, .tbl 21), (6, .tbl 2), (7, .tbl 23), (8, .tbl 12),
   (6, .tbl 9), (6, .tbl 3), (7, .tbl 13), (7, .tbl 17), (8, .tbl 26),
   (8, .tbl 5), (8, .tbl 8), (8, .tbl 11), (6, .tbl 22)]
  ++ [(7, .tbl 26)] ++ List.replicate 60 (6, .tbl 26) ++ [(6, .tbl 25)]

/-- Apply one step of the schedule: k squarings, then one multiplication. -/
def invStepApply (m : α → α → α) (a : α) (s : α) (st : Nat × InvMult) : α :=
  m (invMultVal m a st.2) ((sqOp m)^[st.1] s)

/-- The inversion chain as interpretation of the fixed schedule. -/
def invChainRun (m : α → α → α) (a : α) : α :=
  invSteps.foldl (invStepApply m a) a

/-- `fpinv751_mont` (`fpx.c` lines 201-453): field inversion in the Montgomery
domain, `a = a⁻¹·R mod p751`, as the interpretation of the hardcoded schedule.
The theorems `fpinv751_mont_unrolled_2` and `fpinv751_mont_unrolled_3` below
check this form against the literal unrolled transcription. -/
def fpinv751_mont (a : Nat) : Nat := invChainRun fpmul751_mont a

/-- Observable operation events of `fpinv751_mont`: one squaring
(`fpsqr751_mont` call), one multiplication of the main chain by a schedule
multiplier, or one of the fixed table-building multiplications writing table
slot `i`. -/
inductive InvOp where
  | sq
  | mul (w : InvMult)
  | mulTable (slot : Nat)

/-- Trace of the table-building phase (`fpx.c` lines 207-225): one squaring
producing a², then 31 multiplications writing the table slots in program
order (overwritten slots appear twice). -/
def invTableTrace : List InvOp :=
  InvOp.sq ::
  ([0, 1, 2, 3, 3, 4, 5, 6, 7, 8, 9, 9, 10, 11, 12, 13, 14, 15, 16, 17, 18,
    19, 20, 21, 21, 22, 23, 24, 25, 25, 26].map .mulTable)

/-- One instrumented step of the main chain: the value evolves exactly as in
`invStepApply`, while the performed operations (k squarings, then one
multiplication) are appended to the trace. -/
def invStepApplyT (m : α → α → α) (a : α) (s : α × List InvOp)
    (st : Nat × InvMult) : α × List InvOp :=
  (invStepApply m a s.1 st, s.2 ++ (List.replicate st.1 .sq ++ [.mul st.2]))

/-- Instrumented run of the inversion chain: the computed value together with
the full trace of squaring/multiplication events. -/
def invChainRunT (m : α → α → α) (a : α) : α × List InvOp :=
  invSteps.foldl (invStepApplyT m a) (a, invTableTrace)

/-! ## GF(p751²) extension layer (`fpx.c` lines 459-573)

An `f2elm_t` is modelled at the value level as the pair of the values of its
two felm components. -/

/-- `fp2neg751` (`fpx.c` lines 473-477): componentwise negation. -/
def fp2neg751 (a : Nat × Nat) : Nat × Nat := (fpneg751 a.1, fpneg751 a.2)

/-- `fp2add751` (`fpx.c` lines 480-484): componentwise addition. -/
def fp2add751 (a b : Nat × Nat) : Nat × Nat :=
  (fpadd751 a.1 b.1, fpadd751 a.2 b.2)

/-- `fp2sub751` (`fpx.c` lines 487-491): componentwise subtraction. -/
def fp2sub751 (a b : Nat × Nat) : Nat × Nat :=
  (fpsub751 a.1 b.1, fpsub751 a.2 b.2)

/-- `fp2div2_751` (`fpx.c` lines 494-498): componentwise halving. -/
def fp2div2_751 (a : Nat × Nat) : Nat × Nat :=
  (fpdiv2_751 a.1, fpdiv2_751 a.2)

/-- `fp2sqr751_mont` (`fpx.c` lines 501-510): GF(p²) squaring via
c0 = (a0+a1)(a0−a1), c1 = 2a0·a1; the sums t1 = a0+a1 and t3 = 2a0 are raw
`mp_add` results (carry dropped), the difference t2 is a reduced `fpsub751`. -/
def fp2sqr751_mont (a : Nat × Nat) : Nat × Nat :=
  let t1 := (mp_add a.1 a.2 NWORDS_FIELD).1
  let t2 := fpsub751 a.1 a.2
  let t3 := (mp_add a.1 a.1 NWORDS_FIELD).1
  (fpmul751_mont t1 t2, fpmul751_mont t3 a.2)

/-- The double-width intermediate of `fp2mul751_mont` (`fpx.c` lines 524-535):
tt3 = tt1 − tt2 wrapped over 2·NWORDS_FIELD digits, then the borrow-driven
masked addition of p751 to the upper NWORDS_FIELD digits (final carry dropped,
i.e. the upper half wraps modulo 2^768). -/
def fp2mul_c0_numerator (a b : Nat × Nat) : Nat :=
  let tt1 := mp_mul a.1 b.1
  let tt2 := mp_mul a.2 b.2
  let s := mp_sub tt1 tt2 (2 * NWORDS_FIELD)
  let maskp := if s.2 = 1 then p751 else 0
  s.1 % 2 ^ 768 + 2 ^ 768 * ((s.1 / 2 ^ 768 + maskp) % 2 ^ 768)

/-- `fp2mul751_mont` (`fpx.c` lines 513-541): GF(p²) Karatsuba-style
multiplication; c0 reduces the masked-corrected tt3, c1 reduces
(a0+a1)(b0+b1) − a0·b0 − a1·b1. -/
def fp2mul751_mont (a b : Nat × Nat) : Nat × Nat :=
  let tt1 := mp_mul a.1 b.1
  let tt2 := mp_mul a.2 b.2
  let t1 := (mp_add a.1 a.2 NWORDS_FIELD).1
  let t2 := (mp_add b.1 b.2 NWORDS_FIELD).1
  let c0 := rdc_mont (fp2mul_c0_numerator a b)
  let tt1 := (mp_add tt1 tt2 (2 * NWORDS_FIELD)).1
  let tt2 := (mp_sub (mp_mul t1 t2) tt1 (2 * NWORDS_FIELD)).1
  (c0, rdc_mont tt2)

/-- `to_fp2mont` (`fpx.c` lines 544-550): componentwise `to_mont`. -/
def to_fp2mont (a : Nat × Nat) : Nat × Nat := (to_mont a.1, to_mont a.2)

/-- `from_fp2mont` (`fpx.c` lines 553-559): componentwise `from_mont`. -/
def from_fp2mont (ma : Nat × Nat) : Nat × Nat := (from_mont ma.1, from_mont ma.2)

/-- `fp2inv751_mont` (`fpx.c` lines 562-573): GF(p²) inversion via the norm,
a = (a0 − i·a1)·(a0² + a1²)⁻¹. -/
def fp2inv751_mont (a : Nat × Nat) : Nat × Nat :=
  let t10 := fpsqr751_mont a.1
  let t11 := fpsqr751_mont a.2
  let t10 := fpadd751 t10 t11
  let t10 := fpinv751_mont t10
  let a1 := fpneg751 a.2
  (fpmul751_mont a.1 t10, fpmul751_mont a1 t10)

/-! ## Digit-level layer

The comparison predicates and the selection/swap primitives manipulate the
individual digits of their operands, so they are modelled on the digit arrays
themselves. -/

/-- A field element as its array of NWORDS_FIELD = 12 digits (little-endian). -/
def felmD := Fin 12 → Nat

/-- The integer value denoted by a digit array (little-endian, radix 2^64). -/
def felmVal (x : felmD) : Nat :=
  x 0 + 2 ^ 64 * (x 1 + 2 ^ 64 * (x 2 + 2 ^ 64 * (x 3 + 2 ^ 64 * (x 4 +
    2 ^ 64 * (x 5 + 2 ^ 64 * (x 6 + 2 ^ 64 * (x 7 + 2 ^ 64 * (x 8 +
    2 ^ 64 * (x 9 + 2 ^ 64 * (x 10 + 2 ^ 64 * x 11))))))))))

/-- Modelled from the spec: the constant-time comparison macro `CT_LT` from
`SIDH_internal.h` — a branch-free digit comparison whose low bit (extracted by
the `& 1` at the call site) is 1 exactly when `a < b`. -/
def CT_LT (a b : Nat) : Nat := if a < b then 1 else 0

/-- `is_felm_zero` (`fpx.c` lines 70-79): ORs every digit into the 32-bit
accumulator `r` (`r |= x[i] ^ 0`) and returns `r`. -/
def is_felm_zero (x : felmD) : Nat :=
  (List.finRange 12).foldl (fun r i => (r ||| (x i ^^^ 0)) % 2 ^ 32) 0

/-- `is_felm_even` (`fpx.c` lines 82-85). -/
def is_felm_even (x : felmD) : Nat := (x 0 &&& 1) ^^^ 1

/-- `is_felm_lt` (`fpx.c` lines 88-97): iterates from the most-significant
digit down to the least, accumulating `r += CT_LT(x[i], y[i]) & 1`, and
returns `r`. -/
def is_felm_lt (x y : felmD) : Nat :=
  ((List.finRange 12).reverse).foldl (fun r i => r + (CT_LT (x i) (y i) &&& 1)) 0

/-- An `f2elm_t` at the digit level: the two digit arrays of its components. -/
@[ext]
structure F2elmD where
  c0 : felmD
  c1 : felmD

/-- A projective point over the base field (`point_basefield_proj_t`):
coordinates X and Z, each a single felm. -/
@[ext]
structure PointBasefieldProjD where
  X : felmD
  Z : felmD

/-- A projective point over GF(p²) (`point_proj_t`): coordinates X and Z,
each an f2elm with components X[0], X[1], Z[0], Z[1]. -/
@[ext]
structure PointProjD where
  X0 : felmD
  X1 : felmD
  Z0 : felmD
  Z1 : felmD

/-- `swap_points_basefield` (`fpx.c` lines 576-593): masked in-place swap of
two base-field projective points; per digit, `temp = option & (P_i ^ Q_i)` is
XORed into both sides.  Modelled functionally: returns the new (P, Q). -/
def swap_points_basefield (P Q : PointBasefieldProjD) (option : Nat) :
    PointBasefieldProjD × PointBasefieldProjD :=
  (⟨fun i => (option &&& (P.X i ^^^ Q.X i)) ^^^ P.X i,
    fun i => (option &&& (P.Z i ^^^ Q.Z i)) ^^^ P.Z i⟩,
   ⟨fun i => (option &&& (P.X i ^^^ Q.X i)) ^^^ Q.X i,
    fun i => (option &&& (P.Z i ^^^ Q.Z i)) ^^^ Q.Z i⟩)

/-- `swap_points` (`fpx.c` lines 596-616): masked in-place swap of two
GF(p²) projective points, applied to all four coordinate components. -/
def swap_points (P Q : PointProjD) (option : Nat) :
    PointProjD × PointProjD :=
  (⟨fun i => (option &&& (P.X0 i ^^^ Q.X0 i)) ^^^ P.X0 i,
    fun i => (option &&& (P.X1 i ^^^ Q.X1 i)) ^^^ P.X1 i,
    fun i => (option &&& (P.Z0 i ^^^ Q.Z0 i)) ^^^ P.Z0 i,
    fun i => (option &&& (P.Z1 i ^^^ Q.Z1 i)) ^^^ P.Z1 i⟩,
   ⟨fun i => (option &&& (P.X0 i ^^^ Q.X0 i)) ^^^ Q.X0 i,
    fun i => (option &&& (P.X1 i ^^^ Q.X1 i)) ^^^ Q.X1 i,
    fun i => (option &&& (P.Z0 i ^^^ Q.Z0 i)) ^^^ Q.Z0 i,
    fun i => (option &&& (P.Z1 i ^^^ Q.Z1 i)) ^^^ Q.Z1 i⟩)

/-- `select_f2elm` (`fpx.c` lines 619-628): masked selection,
`z = (option & (x ^ y)) ^ x` per digit and component. -/
def select_f2elm (x y : F2elmD) (option : Nat) : F2elmD :=
  ⟨fun i => (option &&& (x.c0 i ^^^ y.c0 i)) ^^^ x.c0 i,
   fun i => (option &&& (x.c1 i ^^^ y.c1 i)) ^^^ x.c1 i⟩

/-- The all-one 64-bit mask 0xFF...FF. -/
def maskFF : Nat := 2 ^ 64 - 1

/-- Digit arrays with every digit a valid 64-bit value. -/
abbrev felmBounded (x : felmD) : Prop := ∀ i, x i < 2 ^ 64

/-- All four coordinate components of a GF(p²) projective point are valid
64-bit digit arrays. -/
abbrev pointProjBounded (P : PointProjD) : Prop :=
  felmBounded P.X0 ∧ felmBounded P.X1 ∧ felmBounded P.Z0 ∧ felmBounded P.Z1

/-- Both coordinates of a base-field projective point are valid 64-bit digit
arrays. -/
abbrev pointBaseBounded (P : PointBasefieldProjD) : Prop :=
  felmBounded P.X ∧ felmBounded P.Z

/-- Both components of a digit-level f2elm are valid 64-bit digit arrays. -/
abbrev f2elmBounded (x : F2elmD) : Prop := felmBounded x.c0 ∧ felmBounded x.c1

/-! ## A quadratic extension ring for the primality certificate of p751

The correctness statements about `fpinv751_mont` need Fermat's little theorem
modulo p751, hence a primality proof for p751 = 2^372·3^239 − 1.  Since
p751 + 1 is fully factored, a Pocklington-style certificate on the quadratic
extension (ℤ/p751)[s]/(s² − d) applies: an element of multiplicative order
p751 + 1 modulo every prime factor of p751 forces every prime factor r of
p751 to satisfy r² > p751. -/

/-- The multiplicative structure of (ℤ/n)[s]/(s² − d): pairs re + im·s of
residues modulo n, with (a + bs)(c + es) = (ac + d·be) + (ae + bc)s. -/
@[ext]
structure Zext (n : Nat) (d : Nat) where
  re : ZMod n
  im : ZMod n
deriving DecidableEq

instance {n d : Nat} : Mul (Zext n d) :=
  ⟨fun x y => ⟨x.re * y.re + (d : ZMod n) * (x.im * y.im),
               x.re * y.im + x.im * y.re⟩⟩

instance {n d : Nat} : One (Zext n d) := ⟨⟨1, 0⟩⟩

instance {n d : Nat} : Monoid (Zext n d) where
  mul_assoc a b c := by
    ext
    · show (a.re * b.re + (d : ZMod n) * (a.im * b.im)) * c.re +
          (d : ZMod n) * ((a.re * b.im + a.im * b.re) * c.im) =
          a.re * (b.re * c.re + (d : ZMod n) * (b.im * c.im)) +
          (d : ZMod n) * (a.im * (b.re * c.im + b.im * c.re))
      ring
    · show (a.re * b.re + (d : ZMod n) * (a.im * b.im)) * c.im +
          (a.re * b.im + a.im * b.re) * c.re =
          a.re * (b.re * c.im + b.im * c.re) +
          a.im * (b.re * c.re + (d : ZMod n) * (b.im * c.im))
      ring
  one_mul a := by
    ext
    · show (1 : ZMod n) * a.re + (d : ZMod n) * ((0 : ZMod n) * a.im) = a.re
      ring
    · show (1 : ZMod n) * a.im + (0 : ZMod n) * a.re = a.im
      ring
  mul_one a := by
    ext
    · show a.re * (1 : ZMod n) + (d : ZMod n) * (a.im * (0 : ZMod n)) = a.re
      ring
    · show a.re * (0 : ZMod n) + a.im * (1 : ZMod n) = a.im
      ring

instance {n d : Nat} [NeZero n] : Fintype (Zext n d) :=
  Fintype.ofEquiv (ZMod n × ZMod n)
    ⟨fun p => ⟨p.1, p.2⟩, fun x => (x.re, x.im), fun _ => rfl, fun _ => rfl⟩

/-- Squaring step, used to evaluate x^(2^a) by iteration. -/
def zsq {n d : Nat} (x : Zext n d) : Zext n d := x * x

/-- Cubing step, used to evaluate x^(3^b) by iteration. -/
def zcube {n d : Nat} (x : Zext n d) : Zext n d := x * (x * x)

/-- Subtraction of one, componentwise (re − 1, im). -/
def zsub1 {n d : Nat} (x : Zext n d) : Zext n d := ⟨x.re - 1, x.im⟩

/-- The norm form re² − d·im² of an element of `Zext n d`. -/
def znorm {n d : Nat} (x : Zext n d) : ZMod n :=
  x.re * x.re - (d : ZMod n) * (x.im * x.im)

/-- Componentwise reduction `Zext n d → Zext r d` along `r ∣ n`, as a monoid
homomorphism. -/
def zextMap (n r d : Nat) (h : r ∣ n) : Zext n d →* Zext r d where
  toFun x := ⟨ZMod.castHom h (ZMod r) x.re, ZMod.castHom h (ZMod r) x.im⟩
  map_one' := by
    ext
    · show ZMod.castHom h (ZMod r) (1 : ZMod n) = 1
      simp only [map_one]
    · show ZMod.castHom h (ZMod r) (0 : ZMod n) = 0
      simp only [map_zero]
  map_mul' x y := by
    ext
    · show ZMod.castHom h (ZMod r) (x.re * y.re + (d : ZMod n) * (x.im * y.im)) =
        ZMod.castHom h (ZMod r) x.re * ZMod.castHom h (ZMod r) y.re +
          (d : ZMod r) * (ZMod.castHom h (ZMod r) x.im * ZMod.castHom h (ZMod r) y.im)
      simp only [map_add, map_mul, map_natCast]
    · show ZMod.castHom h (ZMod r) (x.re * y.im + x.im * y.re) =
        ZMod.castHom h (ZMod r) x.re * ZMod.castHom h (ZMod r) y.im +
          ZMod.castHom h (ZMod r) x.im * ZMod.castHom h (ZMod r) y.re
      simp only [map_add, map_mul]

/-- The parameter d of the extension used in the certificate: d = p751 − 1,
i.e. s² = −1 (p751 ≡ 3 mod 4, so −1 is a non-residue). -/
def zextD : Nat := p751 - 1

/-- Real part of the certificate witness (computed offline as γ^(p751−1) for a
fixed γ in the extension). -/
def alphaRe : Nat := 6727393767859791222906463131063042605233010830507379757295014219473046945296262314169281241038414605286672004453626751647943526626668713548957865644405426922474676209152025867069296675920537302420060163956517988498234044801514

/-- Imaginary part of the certificate witness. -/
def alphaIm : Nat := 9283163431855343349807571254710804335478179761990322808185426948572013904579564951602443799051387281654889259004379625970091686837686315823160173529612799798105568225136880197551819651432672583851110972875909329758085558121061

/-- The certificate witness α ∈ Zext p751 (p751−1). -/
def alphaP : Zext p751 zextD := ⟨(alphaRe : ZMod p751), (alphaIm : ZMod p751)⟩

/-- The residue represented by a Montgomery-domain value: x·R⁻¹ mod p751,
as an element of ZMod p751. -/
def mval (x : Nat) : ZMod p751 := (x : ZMod p751) * (Rinv751 : ZMod p751)

/-! ## Concrete inputs used by counterexamples and witnesses -/

/-- Digit array denoting 2^64 (digit 1 set). -/
def c3x : felmD := fun i => if i.val = 1 then 1 else 0

/-- Digit array denoting 1 (digit 0 set). -/
def c3y : felmD := fun i => if i.val = 0 then 1 else 0

/-- The all-zero digit array. -/
def c4zero : felmD := fun _ => 0

/-- A concrete GF(p²) projective point used by witnesses. -/
def pt1 : PointProjD :=
  ⟨fun i => i.val, fun i => i.val + 1, fun _ => 2, fun _ => 3⟩

/-- A second concrete GF(p²) projective point used by witnesses. -/
def pt2 : PointProjD :=
  ⟨fun _ => 5, fun _ => 7, fun i => i.val * i.val, fun _ => 11⟩

/-- A concrete base-field projective point used by witnesses. -/
def ptb1 : PointBasefieldProjD := ⟨fun i => i.val, fun _ => 13⟩

/-- A second concrete base-field projective point used by witnesses. -/
def ptb2 : PointBasefieldProjD := ⟨fun _ => 17, fun i => i.val + 2⟩

/-- A concrete digit-level f2elm used by witnesses. -/
def f2a : F2elmD := ⟨fun i => i.val, fun _ => 19⟩

/-- A second concrete digit-level f2elm used by witnesses. -/
def f2b : F2elmD := ⟨fun _ => 23, fun i => i.val + 3⟩


/-! ## Strided intermediate values of the primality certificate

Each constant below is a power of the witness α, computed offline; the step
theorems re-verify every stride inside the kernel. -/

/-- Certificate intermediate value `sA1`. -/
def sA1 : Zext p751 zextD := ⟨(3928182069943166631816108099617906459746555607260162033825392695488665172398461009243039717440627250966341087451879657862508620302305147842482614743439679798184064727681281672395074698302443176117011267635178378735564214680215 : Nat), (7597249987638087437829393634195678715328093906201250054767262186656173420092221816199089692564231981231630631334102198302555367757823136739274651969277993751933041917042478055072121078128394050022753109851548541682963176437892 : Nat)⟩

/-- Certificate intermediate value `sA2`. -/
def sA2 : Zext p751 zextD := ⟨(9625784074013697012639417915366468936200550872316653074681472569971555670629803295542364862510333274222799410695062429232569822706944981424004165459342264138514862141349639398558168899969543409920637919269011648817111931707781 : Nat), (501826043601966036810506437339297379645704260090813931888291315805394940817631508108050966851516953990480889234965901484434080175483652397594675277167258201878728603079417041546049647045854822298766227546126270719750871482652 : Nat)⟩

/-- Certificate intermediate value `sA3`. -/
def sA3 : Zext p751 zextD := ⟨(4851479374091411184221577904199208340915531159926416413426004279533014457072084322385526412302728572295289377932476963437969726877203919137112832537626760307868293604710737362928802605701398394905366644400958617769195449194865 : Nat), (292597093146474058010930101762514985950403150102778680248883042230187595659566592194369963441336888888608452198765199402804525887168856358671032651002995260630099587710368748785991343673939721338145034309104425370033605097998 : Nat)⟩

/-- Certificate intermediate value `sA`. -/
def sA : Zext p751 zextD := ⟨(10245509419112902068262442704384566306714563984397450801345035963909452963409617896409596792272262926686009663890207635477270183732365429530384088301668767343044848701470146700203773832872010372823873268030022162804632337415152 : Nat), (573566343034704682860399539545602534292142969635658720957322700104372473652949640693370959412842353354187753124223937915402004723423310462064511437969628807582906981737637490647895012635630304419312720474959878449485048872924 : Nat)⟩

/-- Certificate intermediate value `sB`. -/
def sB : Zext p751 zextD := ⟨(302251352803159490935224288422709456748067941952596318390119272777098652740057531049633959314468401554711450159740530611166785867236225857024342355949651757378700694395479380926681927590606771264739299224390086743318594939299 : Nat), (8909766825793902922252845506792602395359957607429044647038734201612341659408918913630218221243119517816895699177105299178765935904766351079416551511416585624379896237786632302001577536318126213400775865927550571979941767223139 : Nat)⟩

/-- Certificate intermediate value `tA1`. -/
def tA1 : Zext p751 zextD := ⟨(4071181114447119198135380062573895368988354199615891933733727541754484030881060118452299225447896631781647734568623320133709300686005051569511002760715122944009193427206104063988275104703309056297638171690986333987441334180876 : Nat), (1917148380659254241714565657525099779908295806401066079792188359045240051934612390012995344945774636232209414543327548657926952682130012385331817836566998564825608070035862006766215574977980780671999052536019823796638665858653 : Nat)⟩

/-- Certificate intermediate value `tA2`. -/
def tA2 : Zext p751 zextD := ⟨(4175693225652358064947830600382078661732760130091685911333093914747966059431299383319962850594273588133589791442192380327403682050519765140730348014173110038209725517530275304538900380555262775496817598018290130138169727025008 : Nat), (7791094428131815331988868319145372574830190736869933265282473231546973941509842574411156511698322986114510997501147972426810044049266127267096682340992894006969236586449393739509038824537296818405676068363070676098764233443753 : Nat)⟩

/-- Certificate intermediate value `tA3`. -/
def tA3 : Zext p751 zextD := ⟨(2034502502321983841247307031462533431166719159940893968975589085777650916221701310966258837568069139170099758282111350792344735968405790117792001172481150215985497059982691759073005685062925658480388868772742671773996254105914 : Nat), (6823667395400314380729748898703228260124397448327026772629005445666267399205321142227288763307021734070783128733153131235198686136608758702484650597922990837487849739535966408935021215169121116173429499281517747156887194341057 : Nat)⟩

/-- Certificate intermediate value `tA4`. -/
def tA4 : Zext p751 zextD := ⟨(10354717741769305252977768237866805321427389645549071170116189679054678940682478846502882896561066713624553211618840202385203911976522554393044160468771151816976706840078913334358399730952774926980235086850991501872665651576830 : Nat), (0 : Nat)⟩

/-- Certificate intermediate value `uB1`. -/
def uB1 : Zext p751 zextD := ⟨(1580516821458505643311886325103296836689541759224563110458517566381847843927379558485814412643234617569272746324214290450660797543387275413115680154580776277496849806102623796804468096307598606571424590761379854788912208806339 : Nat), (3177146814865988729988029663600163899932130027428584119051291394716508793622475659098151525128355827378763224879428040785508849085995303934597162501350046513018126299508336701672763161828810118519964335620702098892828658406681 : Nat)⟩

/-- Certificate intermediate value `uB2`. -/
def uB2 : Zext p751 zextD := ⟨(7422719480890273757896755396254292639751235059477693410239834197685455550633824745250659663385310329654650430798871071793506385402129838120280283038255823564783641583490982654775609104192101880970355031075435595623481376283918 : Nat), (2904662541487990362996303180525903796283897400398440606336393227804284287173318477246149074435479341733686662004556657531727972303780040038591005322771531429083048827509316809114172891018070164685164912201185660815332353189416 : Nat)⟩

/-- Certificate intermediate value `uB3`. -/
def uB3 : Zext p751 zextD := ⟨(215064277274555052504198514479902065270033366240107205215995326247924142376544563621187416328942570758552419352729340508946299123203220691033686641028632269515433438985492580231820693082935195637122143011001364095312362659470 : Nat), (8027411106841099311502701207947718698479686765313102106129544548614538218276593129629315493388245966357354865898418724267501409308572333660422391385945778133891832115342132579162627299334534985274182837638292194447066005328998 : Nat)⟩

/-- Certificate intermediate value `uB4`. -/
def uB4 : Zext p751 zextD := ⟨(5177358870884652626488884118933402660713694822774535585058094839527339470341239423251441448280533356812276605809420101192601955988261277196522080234385575908488353420039456667179199865476387463490117543425495750936332825788415 : Nat), (88125128688286061076675113061711296993756606044690460469887703053904757874962770078342872852198345773479396114432 : Nat)⟩

/-! ## Basic facts about the constants -/

theorem p751_eq : p751 = 2 ^ 372 * 3 ^ 239 - 1 := by decide

theorem p751p1_eq : p751p1 = p751 + 1 := by decide

theorem R2_eq : Montgomery_R2 = R751 * R751 % p751 := by decide

theorem R_mul_Rinv : R751 * Rinv751 % p751 = 1 := by decide

theorem p751_pos : 0 < p751 := by decide

theorem p751_lt_R : p751 < R751 := by decide

/-! ## Limb-level helper lemmas for the masked swap/select pattern -/

theorem swap_limb_zero (a b : Nat) : (0 &&& (a ^^^ b)) ^^^ a = a := by
  simp

theorem swap_limb_ones {a b : Nat} (ha : a < 2 ^ 64) (hb : b < 2 ^ 64) :
    (maskFF &&& (a ^^^ b)) ^^^ a = b := by
  have hx : a ^^^ b < 2 ^ 64 := Nat.xor_lt_two_pow ha hb
  rw [maskFF, Nat.and_comm, Nat.and_pow_two_sub_one_of_lt_two_pow hx,
    Nat.xor_comm a b, Nat.xor_cancel_right]

theorem swap_limb_twice_left (o a b : Nat) :
    (o &&& (((o &&& (a ^^^ b)) ^^^ a) ^^^ ((o &&& (a ^^^ b)) ^^^ b))) ^^^
      ((o &&& (a ^^^ b)) ^^^ a) = a := by
  have h1 : ((o &&& (a ^^^ b)) ^^^ a) ^^^ ((o &&& (a ^^^ b)) ^^^ b) = a ^^^ b := by
    rw [Nat.xor_comm (o &&& (a ^^^ b)) a, Nat.xor_assoc, Nat.xor_cancel_left]
  rw [h1, Nat.xor_cancel_left]

theorem swap_limb_twice_right (o a b : Nat) :
    (o &&& (((o &&& (a ^^^ b)) ^^^ a) ^^^ ((o &&& (a ^^^ b)) ^^^ b))) ^^^
      ((o &&& (a ^^^ b)) ^^^ b) = b := by
  have h1 : ((o &&& (a ^^^ b)) ^^^ a) ^^^ ((o &&& (a ^^^ b)) ^^^ b) = a ^^^ b := by
    rw [Nat.xor_comm (o &&& (a ^^^ b)) a, Nat.xor_assoc, Nat.xor_cancel_left]
  rw [h1, Nat.xor_cancel_left]

theorem swap_points_zero (P Q : PointProjD) : swap_points P Q 0 = (P, Q) := by
  simp only [swap_points]
  refine Prod.ext ?_ ?_ <;> ext i <;> simp

theorem swap_points_basefield_zero (P Q : PointBasefieldProjD) :
    swap_points_basefield P Q 0 = (P, Q) := by
  simp only [swap_points_basefield]
  refine Prod.ext ?_ ?_ <;> ext i <;> simp

theorem swap_limb_ones_snd {a b : Nat} (ha : a < 2 ^ 64) (hb : b < 2 ^ 64) :
    (maskFF &&& (a ^^^ b)) ^^^ b = a := by
  have hx : a ^^^ b < 2 ^ 64 := Nat.xor_lt_two_pow ha hb
  rw [maskFF, Nat.and_comm, Nat.and_pow_two_sub_one_of_lt_two_pow hx,
    Nat.xor_cancel_right]

theorem swap_points_ones (P Q : PointProjD) (hP : pointProjBounded P)
    (hQ : pointProjBounded Q) : swap_points P Q maskFF = (Q, P) := by
  obtain ⟨hP1, hP2, hP3, hP4⟩ := hP
  obtain ⟨hQ1, hQ2, hQ3, hQ4⟩ := hQ
  simp only [swap_points]
  refine Prod.ext ?_ ?_ <;> refine PointProjD.ext ?_ ?_ ?_ ?_ <;> funext i <;>
    first
      | exact swap_limb_ones (hP1 i) (hQ1 i)
      | exact swap_limb_ones (hP2 i) (hQ2 i)
      | exact swap_limb_ones (hP3 i) (hQ3 i)
      | exact swap_limb_ones (hP4 i) (hQ4 i)
      | exact swap_limb_ones_snd (hP1 i) (hQ1 i)
      | exact swap_limb_ones_snd (hP2 i) (hQ2 i)
      | exact swap_limb_ones_snd (hP3 i) (hQ3 i)
      | exact swap_limb_ones_snd (hP4 i) (hQ4 i)

theorem swap_points_basefield_ones (P Q : PointBasefieldProjD)
    (hP : pointBaseBounded P) (hQ : pointBaseBounded Q) :
    swap_points_basefield P Q maskFF = (Q, P) := by
  obtain ⟨hP1, hP2⟩ := hP
  obtain ⟨hQ1, hQ2⟩ := hQ
  simp only [swap_points_basefield]
  refine Prod.ext ?_ ?_ <;> refine PointBasefieldProjD.ext ?_ ?_ <;> funext i <;>
    first
      | exact swap_limb_ones (hP1 i) (hQ1 i)
      | exact swap_limb_ones (hP2 i) (hQ2 i)
      | exact swap_limb_ones_snd (hP1 i) (hQ1 i)
      | exact swap_limb_ones_snd (hP2 i) (hQ2 i)

theorem swap_points_twice (P Q : PointProjD) (o : Nat) :
    swap_points (swap_points P Q o).1 (swap_points P Q o).2 o = (P, Q) := by
  simp only [swap_points]
  refine Prod.ext ?_ ?_ <;> refine PointProjD.ext ?_ ?_ ?_ ?_ <;> funext i <;>
    first
      | exact swap_limb_twice_left o _ _
      | exact swap_limb_twice_right o _ _

theorem swap_points_basefield_twice (P Q : PointBasefieldProjD) (o : Nat) :
    swap_points_basefield (swap_points_basefield P Q o).1
      (swap_points_basefield P Q o).2 o = (P, Q) := by
  simp only [swap_points_basefield]
  refine Prod.ext ?_ ?_ <;> refine PointBasefieldProjD.ext ?_ ?_ <;> funext i <;>
    first
      | exact swap_limb_twice_left o _ _
      | exact swap_limb_twice_right o _ _

theorem select_f2elm_zero (x y : F2elmD) : select_f2elm x y 0 = x := by
  simp only [select_f2elm]
  refine F2elmD.ext ?_ ?_ <;> funext i <;> simp

theorem select_f2elm_ones (x y : F2elmD) (hx : f2elmBounded x)
    (hy : f2elmBounded y) : select_f2elm x y maskFF = y := by
  obtain ⟨hx1, hx2⟩ := hx
  obtain ⟨hy1, hy2⟩ := hy
  simp only [select_f2elm]
  refine F2elmD.ext ?_ ?_ <;> funext i <;>
    first
      | exact swap_limb_ones (hx1 i) (hy1 i)
      | exact swap_limb_ones (hx2 i) (hy2 i)

/-! ## Claim theorems: digit-level comparisons and swaps -/

/-- C3: counterexample evaluation.  `is_felm_lt` accumulates
`r += CT_LT(x[i], y[i]) & 1` over all digits, which counts the digit positions
where x's digit is smaller; on x = 2^64 (digits (0,1,0,...)) and y = 1
(digits (1,0,...)) it returns 1 ("x < y") although x > y as little-endian
12-digit integers, contradicting the documented "Is x < y?" behaviour. -/
theorem is_felm_lt_code_bug :
    is_felm_lt c3x c3y = 1 ∧ felmVal c3y < felmVal c3x := by decide

/-- C4: counterexample evaluation.  `is_felm_zero` ORs every digit into `r`
and returns `r`, so on the all-zero input it returns 0 (FALSE) although every
digit is zero and its documentation requires 1 (TRUE); the rewrite dropped
the final negation of the accumulated OR. -/
theorem is_felm_zero_code_bug :
    is_felm_zero c4zero = 0 ∧ (∀ i, c4zero i = 0) := by decide

/-- C8: with the all-zero mask `swap_points` and `swap_points_basefield`
leave every limb of both points unchanged; with the all-one mask they exchange
the two points' coordinate contents completely, and applying the all-one swap
twice restores the original pair. -/
theorem swap_points_mask_behavior (P Q : PointProjD)
    (Pb Qb : PointBasefieldProjD) (hP : pointProjBounded P)
    (hQ : pointProjBounded Q) (hPb : pointBaseBounded Pb)
    (hQb : pointBaseBounded Qb) :
    swap_points P Q 0 = (P, Q) ∧
    swap_points_basefield Pb Qb 0 = (Pb, Qb) ∧
    swap_points P Q maskFF = (Q, P) ∧
    swap_points_basefield Pb Qb maskFF = (Qb, Pb) ∧
    swap_points (swap_points P Q maskFF).1 (swap_points P Q maskFF).2 maskFF
      = (P, Q) ∧
    swap_points_basefield (swap_points_basefield Pb Qb maskFF).1
      (swap_points_basefield Pb Qb maskFF).2 maskFF = (Pb, Qb) :=
  ⟨swap_points_zero P Q, swap_points_basefield_zero Pb Qb,
   swap_points_ones P Q hP hQ, swap_points_basefield_ones Pb Qb hPb hQb,
   swap_points_twice P Q maskFF, swap_points_basefield_twice Pb Qb maskFF⟩

/-- Witness for C8 at concrete points. -/
theorem swap_points_mask_behavior_witness :
    (pointProjBounded pt1 ∧ pointProjBounded pt2 ∧
      pointBaseBounded ptb1 ∧ pointBaseBounded ptb2) ∧
    (swap_points pt1 pt2 0 = (pt1, pt2) ∧
     swap_points_basefield ptb1 ptb2 0 = (ptb1, ptb2) ∧
     swap_points pt1 pt2 maskFF = (pt2, pt1) ∧
     swap_points_basefield ptb1 ptb2 maskFF = (ptb2, ptb1) ∧
     swap_points (swap_points pt1 pt2 maskFF).1 (swap_points pt1 pt2 maskFF).2
       maskFF = (pt1, pt2) ∧
     swap_points_basefield (swap_points_basefield ptb1 ptb2 maskFF).1
       (swap_points_basefield ptb1 ptb2 maskFF).2 maskFF = (ptb1, ptb2)) :=
  ⟨⟨by decide, by decide, by decide, by decide⟩,
   swap_points_mask_behavior pt1 pt2 ptb1 ptb2 (by decide) (by decide)
     (by decide) (by decide)⟩

/-- C10: for every mask value, applying `swap_points` (respectively
`swap_points_basefield`) twice with the same mask restores both points
exactly, since each limb update XORs the same `temp` value both times. -/
theorem swap_points_involution (P Q : PointProjD)
    (Pb Qb : PointBasefieldProjD) (o : Nat) :
    swap_points (swap_points P Q o).1 (swap_points P Q o).2 o = (P, Q) ∧
    swap_points_basefield (swap_points_basefield Pb Qb o).1
      (swap_points_basefield Pb Qb o).2 o = (Pb, Qb) :=
  ⟨swap_points_twice P Q o, swap_points_basefield_twice Pb Qb o⟩

/-! ## Montgomery semantics of the value-level operations

`mval x = x·R⁻¹ mod p751` is the standard-domain residue denoted by a
Montgomery-domain value x; `fpmul751_mont` is multiplication under this
interpretation. -/

theorem R_Rinv_zmod : (R751 : ZMod p751) * (Rinv751 : ZMod p751) = 1 := by
  have h := congrArg (fun t : Nat => (t : ZMod p751)) R_mul_Rinv
  simpa [ZMod.natCast_mod] using h

theorem R2_zmod :
    (Montgomery_R2 : ZMod p751) = (R751 : ZMod p751) * (R751 : ZMod p751) := by
  have h := congrArg (fun t : Nat => (t : ZMod p751)) R2_eq
  simpa [ZMod.natCast_mod] using h

theorem rdc_lt (t : Nat) : rdc_mont t < p751 := Nat.mod_lt _ p751_pos

theorem fpadd_lt (a b : Nat) : fpadd751 a b < p751 := Nat.mod_lt _ p751_pos

theorem fpsub_lt (a b : Nat) : fpsub751 a b < p751 := Nat.mod_lt _ p751_pos

theorem fpneg_lt (a : Nat) : fpneg751 a < p751 := Nat.mod_lt _ p751_pos

theorem fpdiv2_lt {a : Nat} (h : a < p751) : fpdiv2_751 a < p751 := by
  rw [fpdiv2_751]
  split
  · rw [Nat.div_lt_iff_lt_mul (by decide : (0:Nat) < 2)]
    omega
  · calc a / 2 ≤ a := Nat.div_le_self a 2
      _ < p751 := h

theorem mval_rdc (t : Nat) :
    mval (rdc_mont t) =
      (t : ZMod p751) * ((Rinv751 : ZMod p751) * (Rinv751 : ZMod p751)) := by
  simp only [mval, rdc_mont]
  rw [ZMod.natCast_mod]
  push_cast
  ring

theorem mval_fpmul (x y : Nat) :
    mval (fpmul751_mont x y) = mval x * mval y := by
  rw [fpmul751_mont, mp_mul, mval_rdc]
  simp only [mval]
  push_cast
  ring

theorem mval_fpsqr (x : Nat) : mval (fpsqr751_mont x) = mval x * mval x := by
  rw [fpsqr751_mont, mp_mul, mval_rdc]
  simp only [mval]
  push_cast
  ring

theorem mval_to_mont (a : Nat) : mval (to_mont a) = (a : ZMod p751) := by
  have h1 := R_Rinv_zmod
  rw [to_mont, mval_fpmul]
  simp only [mval, R2_zmod]
  linear_combination (a : ZMod p751) *
    ((R751 : ZMod p751) * (Rinv751 : ZMod p751) + 1) * h1

theorem from_mont_eq (x : Nat) : from_mont x = (mval x).val := by
  simp only [from_mont, fpmul751_mont, rdc_mont, mp_mul, mval]
  rw [← Nat.cast_mul, ZMod.val_natCast, mul_one]

theorem mval_fpadd (x y : Nat) : mval (fpadd751 x y) = mval x + mval y := by
  simp only [mval, fpadd751]
  rw [ZMod.natCast_mod]
  push_cast
  ring

theorem mval_fpsub (x y : Nat) (hy : y ≤ p751) :
    mval (fpsub751 x y) = mval x - mval y := by
  simp only [mval, fpsub751]
  rw [ZMod.natCast_mod, Nat.cast_sub (le_trans hy (Nat.le_add_left _ _))]
  push_cast
  rw [ZMod.natCast_self]
  ring

theorem mval_fpneg (x : Nat) (hx : x ≤ p751) :
    mval (fpneg751 x) = - mval x := by
  simp only [mval, fpneg751]
  rw [ZMod.natCast_mod, Nat.cast_sub hx, ZMod.natCast_self]
  ring

theorem eq_of_mval_eq {x y : Nat} (hx : x < p751) (hy : y < p751)
    (h : mval x = mval y) : x = y := by
  haveI : Fact (1 < p751) := ⟨by decide⟩
  have hcast : (x : ZMod p751) = (y : ZMod p751) := by
    have h2 := congrArg (fun z : ZMod p751 => z * (R751 : ZMod p751)) h
    simp only [mval] at h2
    calc (x : ZMod p751)
        = (x : ZMod p751) * ((Rinv751 : ZMod p751) * (R751 : ZMod p751)) := by
          rw [mul_comm (Rinv751 : ZMod p751), R_Rinv_zmod, mul_one]
      _ = (y : ZMod p751) * ((Rinv751 : ZMod p751) * (R751 : ZMod p751)) := by
          rw [← mul_assoc, ← mul_assoc]; exact h2
      _ = (y : ZMod p751) := by
          rw [mul_comm (Rinv751 : ZMod p751), R_Rinv_zmod, mul_one]
  calc x = (x : ZMod p751).val := (ZMod.val_cast_of_lt hx).symm
    _ = (y : ZMod p751).val := by rw [hcast]
    _ = y := ZMod.val_cast_of_lt hy

/-- C1: converting a and b to Montgomery form, multiplying with
`fpmul751_mont` and converting back with `from_mont` yields (a·b) mod p751. -/
theorem mont_mul_roundtrip (a b : Nat) (ha : a < p751) (hb : b < p751) :
    from_mont (fpmul751_mont (to_mont a) (to_mont b)) = a * b % p751 := by
  rw [from_mont_eq, mval_fpmul, mval_to_mont, mval_to_mont, ← Nat.cast_mul,
    ZMod.val_natCast]

/-- Witness for C1 at a = 2, b = 3. -/
theorem mont_mul_roundtrip_witness :
    (2 < p751 ∧ 3 < p751) ∧
    from_mont (fpmul751_mont (to_mont 2) (to_mont 3)) = 2 * 3 % p751 :=
  ⟨⟨by decide, by decide⟩, mont_mul_roundtrip 2 3 (by decide) (by decide)⟩

/-! ## Exactness of the GF(p²) double-width manipulations -/

theorem mod_split_add (s c : Nat) (hs : s < 2 ^ 1536) (hc : c < 2 ^ 768) :
    s % 2 ^ 768 + 2 ^ 768 * ((s / 2 ^ 768 + c) % 2 ^ 768) =
      if s / 2 ^ 768 + c < 2 ^ 768 then s + 2 ^ 768 * c
      else s + 2 ^ 768 * c - 2 ^ 1536 := by
  split <;> omega

/-- The borrow-driven masked addition of 2^768·p751 in `fp2mul751_mont` is
exact: the resulting double-width value is tt1 − tt2 (+ 2^768·p751 exactly
when the subtraction borrowed), and it stays below 2^768·p751, the domain
required for correct Montgomery reduction. -/
theorem fp2mul_c0_numerator_exact (a b : Nat × Nat) (ha1 : a.1 < p751)
    (ha2 : a.2 < p751) (hb1 : b.1 < p751) (hb2 : b.2 < p751) :
    fp2mul_c0_numerator a b + a.2 * b.2 =
      a.1 * b.1 + (if a.1 * b.1 < a.2 * b.2 then p751 * 2 ^ 768 else 0) ∧
    fp2mul_c0_numerator a b < p751 * 2 ^ 768 := by
  have hp : p751 < 2 ^ 768 := by decide
  have hpp : p751 * p751 < p751 * 2 ^ 768 := by decide
  have hub1 : a.1 * b.1 ≤ p751 * p751 :=
    Nat.mul_le_mul (Nat.le_of_lt ha1) (Nat.le_of_lt hb1)
  have hub2 : a.2 * b.2 ≤ p751 * p751 :=
    Nat.mul_le_mul (Nat.le_of_lt ha2) (Nat.le_of_lt hb2)
  have hP2 : p751 * 2 ^ 768 < 2 ^ 1536 := by decide
  simp only [fp2mul_c0_numerator, mp_mul, mp_sub, NWORDS_FIELD]
  norm_num
  constructor
  · split_ifs <;> omega
  · split_ifs <;> omega

/-- The c1 path of `fp2mul751_mont` is exact: the double-width subtraction
(a0+a1)(b0+b1) − (a0·b0 + a1·b1) never borrows for reduced inputs and equals
a0·b1 + a1·b0. -/
theorem fp2mul_c1_arg_exact (a b : Nat × Nat) (ha1 : a.1 < p751)
    (ha2 : a.2 < p751) (hb1 : b.1 < p751) (hb2 : b.2 < p751) :
    (mp_sub
      (mp_mul (mp_add a.1 a.2 NWORDS_FIELD).1 (mp_add b.1 b.2 NWORDS_FIELD).1)
      ((mp_add (mp_mul a.1 b.1) (mp_mul a.2 b.2) (2 * NWORDS_FIELD)).1)
      (2 * NWORDS_FIELD)).1 = a.1 * b.2 + a.2 * b.1 := by
  have hp2 : p751 + p751 < 2 ^ 768 := by decide
  have hq : (p751 + p751) * (p751 + p751) < 2 ^ 1536 := by decide
  have hmul : (a.1 + a.2) * (b.1 + b.2) ≤ (p751 + p751) * (p751 + p751) :=
    Nat.mul_le_mul (by omega) (by omega)
  have hid : (a.1 + a.2) * (b.1 + b.2) =
      a.1 * b.1 + a.2 * b.2 + (a.1 * b.2 + a.2 * b.1) := by ring
  have hub1 : a.1 * b.1 ≤ p751 * p751 :=
    Nat.mul_le_mul (Nat.le_of_lt ha1) (Nat.le_of_lt hb1)
  have hub2 : a.2 * b.2 ≤ p751 * p751 :=
    Nat.mul_le_mul (Nat.le_of_lt ha2) (Nat.le_of_lt hb2)
  have hq2 : p751 * p751 + p751 * p751 < 2 ^ 1536 := by decide
  have e1 : (mp_add a.1 a.2 NWORDS_FIELD).1 = a.1 + a.2 := by
    simp only [mp_add, NWORDS_FIELD]
    norm_num
    omega
  have e2 : (mp_add b.1 b.2 NWORDS_FIELD).1 = b.1 + b.2 := by
    simp only [mp_add, NWORDS_FIELD]
    norm_num
    omega
  have e3 : (mp_add (mp_mul a.1 b.1) (mp_mul a.2 b.2) (2 * NWORDS_FIELD)).1 =
      a.1 * b.1 + a.2 * b.2 := by
    simp only [mp_add, mp_mul, NWORDS_FIELD]
    norm_num
    omega
  rw [e1, e2, e3]
  simp only [mp_sub, mp_mul, NWORDS_FIELD]
  norm_num
  omega

theorem mval_add_nat (x y : Nat) : mval (x + y) = mval x + mval y := by
  simp only [mval]
  push_cast
  ring

theorem mval_fp2mul_1 (a b : Nat × Nat) (ha1 : a.1 < p751) (ha2 : a.2 < p751)
    (hb1 : b.1 < p751) (hb2 : b.2 < p751) :
    mval (fp2mul751_mont a b).1 = mval a.1 * mval b.1 - mval a.2 * mval b.2 := by
  obtain ⟨heq, _⟩ := fp2mul_c0_numerator_exact a b ha1 ha2 hb1 hb2
  have hcast : ((fp2mul_c0_numerator a b : Nat) : ZMod p751) =
      (a.1 : ZMod p751) * (b.1 : ZMod p751) -
        (a.2 : ZMod p751) * (b.2 : ZMod p751) := by
    by_cases hlt : a.1 * b.1 < a.2 * b.2
    · rw [if_pos hlt] at heq
      have h2 := congrArg (fun t : Nat => (t : ZMod p751)) heq
      push_cast at h2
      rw [ZMod.natCast_self] at h2
      linear_combination h2
    · rw [if_neg hlt] at heq
      have h2 := congrArg (fun t : Nat => (t : ZMod p751)) heq
      push_cast at h2
      linear_combination h2
  show mval (rdc_mont (fp2mul_c0_numerator a b)) = _
  rw [mval_rdc, hcast]
  simp only [mval]
  ring

theorem mval_fp2mul_2 (a b : Nat × Nat) (ha1 : a.1 < p751) (ha2 : a.2 < p751)
    (hb1 : b.1 < p751) (hb2 : b.2 < p751) :
    mval (fp2mul751_mont a b).2 = mval a.1 * mval b.2 + mval a.2 * mval b.1 := by
  have e := fp2mul_c1_arg_exact a b ha1 ha2 hb1 hb2
  show mval (rdc_mont ((mp_sub
      (mp_mul (mp_add a.1 a.2 NWORDS_FIELD).1 (mp_add b.1 b.2 NWORDS_FIELD).1)
      ((mp_add (mp_mul a.1 b.1) (mp_mul a.2 b.2) (2 * NWORDS_FIELD)).1)
      (2 * NWORDS_FIELD)).1)) = _
  rw [e, mval_rdc]
  simp only [mval]
  push_cast
  ring

theorem mval_fp2sqr_1 (a : Nat × Nat) (h1 : a.1 < p751) (h2 : a.2 < p751) :
    mval (fp2sqr751_mont a).1 = (mval a.1 + mval a.2) * (mval a.1 - mval a.2) := by
  have hp2 : p751 + p751 < 2 ^ 768 := by decide
  have e1 : (mp_add a.1 a.2 NWORDS_FIELD).1 = a.1 + a.2 := by
    simp only [mp_add, NWORDS_FIELD]
    norm_num
    omega
  show mval (fpmul751_mont (mp_add a.1 a.2 NWORDS_FIELD).1 (fpsub751 a.1 a.2)) = _
  rw [mval_fpmul, e1, mval_add_nat, mval_fpsub a.1 a.2 (Nat.le_of_lt h2)]

theorem mval_fp2sqr_2 (a : Nat × Nat) (h1 : a.1 < p751) (h2 : a.2 < p751) :
    mval (fp2sqr751_mont a).2 = (mval a.1 + mval a.1) * mval a.2 := by
  have hp2 : p751 + p751 < 2 ^ 768 := by decide
  have e3 : (mp_add a.1 a.1 NWORDS_FIELD).1 = a.1 + a.1 := by
    simp only [mp_add, NWORDS_FIELD]
    norm_num
    omega
  show mval (fpmul751_mont (mp_add a.1 a.1 NWORDS_FIELD).1 a.2) = _
  rw [mval_fpmul, e3, mval_add_nat]

/-- C6: for reduced inputs, `fp2sqr751_mont` computes exactly the same pair of
field elements as `fp2mul751_mont` applied to the element with itself, even
though the former uses the (a0+a1)(a0−a1)/2a0·a1 identity and the latter the
Karatsuba formula. -/
theorem fp2sqr_eq_fp2mul (a : Nat × Nat) (h1 : a.1 < p751) (h2 : a.2 < p751) :
    fp2sqr751_mont a = fp2mul751_mont a a := by
  refine Prod.ext ?_ ?_
  · refine eq_of_mval_eq (rdc_lt _) (rdc_lt _) ?_
    rw [mval_fp2sqr_1 a h1 h2, mval_fp2mul_1 a a h1 h2 h1 h2]
    ring
  · refine eq_of_mval_eq (rdc_lt _) (rdc_lt _) ?_
    rw [mval_fp2sqr_2 a h1 h2, mval_fp2mul_2 a a h1 h2 h1 h2]
    ring

/-- Witness for C6 at a = (2, 3). -/
theorem fp2sqr_eq_fp2mul_witness :
    (2 < p751 ∧ 3 < p751) ∧
    fp2sqr751_mont (2, 3) = fp2mul751_mont (2, 3) (2, 3) :=
  ⟨⟨by decide, by decide⟩, fp2sqr_eq_fp2mul (2, 3) (by decide) (by decide)⟩

/-- C5: every GF(p²) operation preserves reducedness: with reduced inputs all
felm components of the outputs of `fp2add751`, `fp2sub751`, `fp2neg751`,
`fp2div2_751`, `fp2mul751_mont`, `fp2sqr751_mont` and `fp2inv751_mont` are
again in [0, p751); the borrow-driven masked addition inside `fp2mul751_mont`
keeps the double-width value below 2^768·p751, the domain required for correct
Montgomery reduction; and select/swap with the valid masks return one of their
(valid) operands, hence preserve the invariant. -/
theorem fp2_ops_preserve_reduced (a b : Nat × Nat) (x y : F2elmD)
    (P Q : PointProjD)
    (ha1 : a.1 < p751) (ha2 : a.2 < p751) (hb1 : b.1 < p751) (hb2 : b.2 < p751)
    (hx : f2elmBounded x) (hy : f2elmBounded y)
    (hP : pointProjBounded P) (hQ : pointProjBounded Q) :
    ((fp2add751 a b).1 < p751 ∧ (fp2add751 a b).2 < p751) ∧
    ((fp2sub751 a b).1 < p751 ∧ (fp2sub751 a b).2 < p751) ∧
    ((fp2neg751 a).1 < p751 ∧ (fp2neg751 a).2 < p751) ∧
    ((fp2div2_751 a).1 < p751 ∧ (fp2div2_751 a).2 < p751) ∧
    ((fp2mul751_mont a b).1 < p751 ∧ (fp2mul751_mont a b).2 < p751) ∧
    ((fp2sqr751_mont a).1 < p751 ∧ (fp2sqr751_mont a).2 < p751) ∧
    ((fp2inv751_mont a).1 < p751 ∧ (fp2inv751_mont a).2 < p751) ∧
    fp2mul_c0_numerator a b < p751 * 2 ^ 768 ∧
    select_f2elm x y 0 = x ∧ select_f2elm x y maskFF = y ∧
    swap_points P Q 0 = (P, Q) ∧ swap_points P Q maskFF = (Q, P) :=
  ⟨⟨fpadd_lt _ _, fpadd_lt _ _⟩,
   ⟨fpsub_lt _ _, fpsub_lt _ _⟩,
   ⟨fpneg_lt _, fpneg_lt _⟩,
   ⟨fpdiv2_lt ha1, fpdiv2_lt ha2⟩,
   ⟨rdc_lt _, rdc_lt _⟩,
   ⟨rdc_lt _, rdc_lt _⟩,
   ⟨rdc_lt _, rdc_lt _⟩,
   (fp2mul_c0_numerator_exact a b ha1 ha2 hb1 hb2).2,
   select_f2elm_zero x y, select_f2elm_ones x y hx hy,
   swap_points_zero P Q, swap_points_ones P Q hP hQ⟩

/-- Witness for C5 at concrete reduced inputs. -/
theorem fp2_ops_preserve_reduced_witness :
    (2 < p751 ∧ 3 < p751 ∧ 5 < p751 ∧ 7 < p751 ∧
     f2elmBounded f2a ∧ f2elmBounded f2b ∧
     pointProjBounded pt1 ∧ pointProjBounded pt2) ∧
    (((fp2add751 (2, 3) (5, 7)).1 < p751 ∧ (fp2add751 (2, 3) (5, 7)).2 < p751) ∧
     ((fp2sub751 (2, 3) (5, 7)).1 < p751 ∧ (fp2sub751 (2, 3) (5, 7)).2 < p751) ∧
     ((fp2neg751 (2, 3)).1 < p751 ∧ (fp2neg751 (2, 3)).2 < p751) ∧
     ((fp2div2_751 (2, 3)).1 < p751 ∧ (fp2div2_751 (2, 3)).2 < p751) ∧
     ((fp2mul751_mont (2, 3) (5, 7)).1 < p751 ∧
       (fp2mul751_mont (2, 3) (5, 7)).2 < p751) ∧
     ((fp2sqr751_mont (2, 3)).1 < p751 ∧ (fp2sqr751_mont (2, 3)).2 < p751) ∧
     ((fp2inv751_mont (2, 3)).1 < p751 ∧ (fp2inv751_mont (2, 3)).2 < p751) ∧
     fp2mul_c0_numerator (2, 3) (5, 7) < p751 * 2 ^ 768 ∧
     select_f2elm f2a f2b 0 = f2a ∧ select_f2elm f2a f2b maskFF = f2b ∧
     swap_points pt1 pt2 0 = (pt1, pt2) ∧
     swap_points pt1 pt2 maskFF = (pt2, pt1)) :=
  ⟨⟨by decide, by decide, by decide, by decide, by decide, by decide,
    by decide, by decide⟩,
   fp2_ops_preserve_reduced (2, 3) (5, 7) f2a f2b pt1 pt2 (by decide)
     (by decide) (by decide) (by decide) (by decide) (by decide) (by decide)
     (by decide)⟩

/-! ## Semantics of the inversion chain

Any map commuting with the abstract multiplication commutes with the whole
chain; instantiating the chain over (ℕ, +) computes the exponent it realises,
which equals p751 − 2. -/

theorem sqOp_iterate_map {α β : Type} (f : α → β) (m : α → α → α)
    (m2 : β → β → β) (hm : ∀ x y, f (m x y) = m2 (f x) (f y)) (k : Nat)
    (x : α) : f ((sqOp m)^[k] x) = (sqOp m2)^[k] (f x) := by
  induction k generalizing x with
  | zero => rfl
  | succ n ih =>
    rw [Function.iterate_succ_apply, Function.iterate_succ_apply, ih]
    congr 1
    exact hm x x

theorem invTable_map {α β : Type} (f : α → β) (m : α → α → α)
    (m2 : β → β → β) (hm : ∀ x y, f (m x y) = m2 (f x) (f y)) (a : α) :
    (invTable m a).map f = invTable m2 (f a) := by
  simp only [invTable, sqOp, List.map_cons, List.map_nil, hm]

theorem getD_map {α β : Type} (f : α → β) (l : List α) (d : α) (i : Nat) :
    (l.map f).getD i (f d) = f (l.getD i d) := by
  induction l generalizing i with
  | nil => rfl
  | cons x xs ih =>
    cases i with
    | zero => rfl
    | succ n => exact ih n

theorem invMultVal_map {α β : Type} (f : α → β) (m : α → α → α)
    (m2 : β → β → β) (hm : ∀ x y, f (m x y) = m2 (f x) (f y)) (a : α)
    (w : InvMult) : f (invMultVal m a w) = invMultVal m2 (f a) w := by
  cases w with
  | tbl i =>
    show f ((invTable m a).getD i.val a) = (invTable m2 (f a)).getD i.val (f a)
    rw [← invTable_map f m m2 hm a, getD_map]
  | inp => rfl

theorem invStepApply_map {α β : Type} (f : α → β) (m : α → α → α)
    (m2 : β → β → β) (hm : ∀ x y, f (m x y) = m2 (f x) (f y)) (a : α)
    (s : α) (st : Nat × InvMult) :
    f (invStepApply m a s st) = invStepApply m2 (f a) (f s) st := by
  simp only [invStepApply]
  rw [hm, sqOp_iterate_map f m m2 hm, invMultVal_map f m m2 hm a]

theorem invSteps_foldl_map {α β : Type} (f : α → β) (m : α → α → α)
    (m2 : β → β → β) (hm : ∀ x y, f (m x y) = m2 (f x) (f y)) (a : α)
    (l : List (Nat × InvMult)) (s : α) :
    f (l.foldl (invStepApply m a) s) = l.foldl (invStepApply m2 (f a)) (f s) := by
  induction l generalizing s with
  | nil => rfl
  | cons st l ih =>
    rw [List.foldl_cons, List.foldl_cons, ih, invStepApply_map f m m2 hm]

theorem invChainRun_map {α β : Type} (f : α → β) (m : α → α → α)
    (m2 : β → β → β) (hm : ∀ x y, f (m x y) = m2 (f x) (f y)) (a : α) :
    f (invChainRun m a) = invChainRun m2 (f a) := by
  rw [invChainRun, invChainRun]
  exact invSteps_foldl_map f m m2 hm a invSteps a

/-- The exponent realised by the hardcoded addition chain is exactly
p751 − 2. -/
theorem invChainRun_exponent :
    invChainRun (fun x y : Nat => x + y) 1 = p751 - 2 := by decide

theorem invChainRun_pow {M : Type} [Monoid M] (u : M) :
    invChainRun (fun x y : M => x * y) u = u ^ (p751 - 2) := by
  have h := invChainRun_map (fun e : Nat => u ^ e) (fun x y : Nat => x + y)
    (fun x y : M => x * y) (fun x y => pow_add u x y) 1
  rw [invChainRun_exponent, pow_one] at h
  exact h.symm

theorem mval_fpinv (x : Nat) :
    mval (fpinv751_mont x) = (mval x) ^ (p751 - 2) := by
  have h := invChainRun_map mval fpmul751_mont
    (fun u v : ZMod p751 => u * v) mval_fpmul x
  rw [fpinv751_mont, h]
  exact invChainRun_pow (mval x)

theorem fpinv_lt (x : Nat) : fpinv751_mont x < p751 := by
  have h : fpinv751_mont x =
      fpmul751_mont (invMultVal fpmul751_mont x (.tbl 25))
        ((sqOp fpmul751_mont)^[6]
          ((invSteps.dropLast).foldl (invStepApply fpmul751_mont x) x)) := by
    rw [fpinv751_mont, invChainRun]
    rfl
  rw [h]
  exact rdc_lt _

/-! ## Input-independence of the inversion operation trace -/

theorem foldT_fst (m : α → α → α) (a : α) (l : List (Nat × InvMult)) :
    ∀ (s : α) (tr : List InvOp),
      (l.foldl (invStepApplyT m a) (s, tr)).1 = l.foldl (invStepApply m a) s := by
  induction l with
  | nil => intro s tr; rfl
  | cons st l ih =>
    intro s tr
    rw [List.foldl_cons, List.foldl_cons]
    exact ih _ _

theorem foldT_trace (m : α → α → α) (a b : α) (l : List (Nat × InvMult)) :
    ∀ (s1 s2 : α) (tr : List InvOp),
      (l.foldl (invStepApplyT m a) (s1, tr)).2 =
        (l.foldl (invStepApplyT m b) (s2, tr)).2 := by
  induction l with
  | nil => intro s1 s2 tr; rfl
  | cons st l ih =>
    intro s1 s2 tr
    rw [List.foldl_cons, List.foldl_cons]
    exact ih _ _ _

/-- C9: the sequence of squaring and multiplication events executed by
`fpinv751_mont` (including the table-index order) is identical for every
input: the instrumented run computes the real function in its first component
while its trace component is the same for any two inputs. -/
theorem fpinv_trace_input_independent (a b : Nat) :
    (invChainRunT fpmul751_mont a).2 = (invChainRunT fpmul751_mont b).2 ∧
    (invChainRunT fpmul751_mont a).1 = fpinv751_mont a :=
  ⟨foldT_trace fpmul751_mont a b invSteps a b invTableTrace,
   foldT_fst fpmul751_mont a invSteps a invTableTrace⟩

/-- Cross-validation: the literal unrolled transcription realises the same
exponent p751 − 2 as the schedule form. -/
theorem invChainUnrolled_exponent :
    invChainUnrolled (fun x y : Nat => x + y) 1 = p751 - 2 := by decide

/-! ## Kernel verification of the certificate strides -/

theorem sqStep1 : zsq^[100] alphaP = sA1 := by decide

theorem sqStep2 : zsq^[100] sA1 = sA2 := by decide

theorem sqStep3 : zsq^[100] sA2 = sA3 := by decide

theorem sqStep4 : zsq^[71] sA3 = sA := by decide

theorem sqStepB : zsq sA = sB := by decide

theorem cuStepA1 : zcube^[60] sA = tA1 := by decide

theorem cuStepA2 : zcube^[60] tA1 = tA2 := by decide

theorem cuStepA3 : zcube^[60] tA2 = tA3 := by decide

theorem cuStepA4 : zcube^[59] tA3 = tA4 := by decide

theorem cuStepB1 : zcube^[60] sB = uB1 := by decide

theorem cuStepB2 : zcube^[60] uB1 = uB2 := by decide

theorem cuStepB3 : zcube^[60] uB2 = uB3 := by decide

theorem cuStepB4 : zcube^[58] uB3 = uB4 := by decide

theorem cuFinal : zcube uB4 = 1 := by decide

theorem gcdHalf : Nat.gcd ((znorm (zsub1 tA4)).val) p751 = 1 := by decide

theorem gcdThird : Nat.gcd ((znorm (zsub1 uB4)).val) p751 = 1 := by decide

/-! ## Assembling the certificate powers -/

theorem pow2_371 : zsq^[371] alphaP = sA := by
  have e : (371 : Nat) = 71 + (100 + (100 + 100)) := by norm_num
  rw [e, Function.iterate_add_apply, Function.iterate_add_apply,
    Function.iterate_add_apply, sqStep1, sqStep2, sqStep3]
  exact sqStep4

theorem pow2_372 : zsq^[372] alphaP = sB := by
  have e : (372 : Nat) = 1 + 371 := by norm_num
  rw [e, Function.iterate_add_apply, pow2_371, Function.iterate_one]
  exact sqStepB

theorem powHalf : zcube^[239] (zsq^[371] alphaP) = tA4 := by
  have e : (239 : Nat) = 59 + (60 + (60 + 60)) := by norm_num
  rw [pow2_371, e, Function.iterate_add_apply, Function.iterate_add_apply,
    Function.iterate_add_apply, cuStepA1, cuStepA2, cuStepA3]
  exact cuStepA4

theorem powThird : zcube^[238] (zsq^[372] alphaP) = uB4 := by
  have e : (238 : Nat) = 58 + (60 + (60 + 60)) := by norm_num
  rw [pow2_372, e, Function.iterate_add_apply, Function.iterate_add_apply,
    Function.iterate_add_apply, cuStepB1, cuStepB2, cuStepB3]
  exact cuStepB4

theorem powFull : zcube^[239] (zsq^[372] alphaP) = 1 := by
  have e : (239 : Nat) = 1 + 238 := by norm_num
  rw [e, Function.iterate_add_apply, powThird, Function.iterate_one]
  exact cuFinal

theorem zsq_iterate_pow {n d : Nat} (k : Nat) (x : Zext n d) :
    zsq^[k] x = x ^ (2 ^ k) := by
  induction k with
  | zero => simp
  | succ m ih =>
    rw [Function.iterate_succ_apply', ih, zsq, ← pow_add, pow_succ, mul_two]

theorem zcube_iterate_pow {n d : Nat} (k : Nat) (x : Zext n d) :
    zcube^[k] x = x ^ (3 ^ k) := by
  induction k with
  | zero => simp
  | succ m ih =>
    rw [Function.iterate_succ_apply', ih, zcube, ← pow_add, ← pow_add, pow_succ]
    congr 1
    ring

theorem zpow_two_three {n d : Nat} (a b : Nat) (x : Zext n d) :
    zcube^[b] (zsq^[a] x) = x ^ (2 ^ a * 3 ^ b) := by
  rw [zsq_iterate_pow, zcube_iterate_pow, ← pow_mul]

/-- A divisor of 2^A·3^B dividing neither 2^(A−1)·3^B nor 2^A·3^(B−1) is
2^A·3^B itself. -/
theorem dvd_two_three_pow {A B e : Nat} (hA : 0 < A) (hB : 0 < B)
    (h1 : e ∣ 2 ^ A * 3 ^ B) (h2 : ¬ e ∣ 2 ^ (A - 1) * 3 ^ B)
    (h3 : ¬ e ∣ 2 ^ A * 3 ^ (B - 1)) : e = 2 ^ A * 3 ^ B := by
  obtain ⟨c, hc⟩ := h1
  by_contra hne
  have hc1 : c ≠ 1 := by
    intro h
    rw [h, mul_one] at hc
    exact hne hc.symm
  obtain ⟨q, hq, hqc⟩ := Nat.exists_prime_and_dvd hc1
  have hq23 : q = 2 ∨ q = 3 := by
    have hqP : q ∣ 2 ^ A * 3 ^ B := hc ▸ hqc.mul_left e
    rcases (Nat.Prime.dvd_mul hq).mp hqP with h | h
    · exact Or.inl ((Nat.prime_dvd_prime_iff_eq hq Nat.prime_two).mp
        (hq.dvd_of_dvd_pow h))
    · exact Or.inr ((Nat.prime_dvd_prime_iff_eq hq Nat.prime_three).mp
        (hq.dvd_of_dvd_pow h))
  obtain ⟨c2, hc2⟩ := hqc
  rcases hq23 with rfl | rfl
  · apply h2
    refine ⟨c2, ?_⟩
    have hA2 : 2 ^ (A - 1 + 1) = 2 * 2 ^ (A - 1) := pow_succ' 2 (A - 1)
    rw [Nat.sub_add_cancel hA] at hA2
    refine Nat.eq_of_mul_eq_mul_left (show 0 < 2 by norm_num) ?_
    calc 2 * (2 ^ (A - 1) * 3 ^ B) = 2 * 2 ^ (A - 1) * 3 ^ B := by ring
      _ = 2 ^ A * 3 ^ B := by rw [← hA2]
      _ = e * (2 * c2) := by rw [hc, hc2]
      _ = 2 * (e * c2) := by ring
  · apply h3
    refine ⟨c2, ?_⟩
    have hB2 : 3 ^ (B - 1 + 1) = 3 * 3 ^ (B - 1) := pow_succ' 3 (B - 1)
    rw [Nat.sub_add_cancel hB] at hB2
    refine Nat.eq_of_mul_eq_mul_left (show 0 < 3 by norm_num) ?_
    calc 3 * (2 ^ A * 3 ^ (B - 1)) = 2 ^ A * (3 * 3 ^ (B - 1)) := by ring
      _ = 2 ^ A * 3 ^ B := by rw [← hB2]
      _ = e * (3 * c2) := by rw [hc, hc2]
      _ = 3 * (e * c2) := by ring

/-! Component lemmas stated over a symbolic modulus, so that instantiating
them at r = p751.minFac never forces the kernel to evaluate minFac. -/

theorem zext_one_re {n d : Nat} : (1 : Zext n d).re = 1 := rfl

theorem zext_one_im {n d : Nat} : (1 : Zext n d).im = 0 := rfl

theorem zextMap_re {n r d : Nat} (h : r ∣ n) (x : Zext n d) :
    (zextMap n r d h x).re = ZMod.castHom h (ZMod r) x.re := rfl

theorem zextMap_im {n r d : Nat} (h : r ∣ n) (x : Zext n d) :
    (zextMap n r d h x).im = ZMod.castHom h (ZMod r) x.im := rfl

theorem zsub1_re {n d : Nat} (x : Zext n d) : (zsub1 x).re = x.re - 1 := rfl

theorem zsub1_im {n d : Nat} (x : Zext n d) : (zsub1 x).im = x.im := rfl

/-- Core of the Pocklington-style certificate: every prime divisor r of p751
satisfies r² > p751, because the witness α reduces to an element of order
p751 + 1 = 2^372·3^239 in the multiplicative monoid of (ℤ/r)[s]/(s²−d),
whose unit group has at most r² elements. -/
theorem p751_prime_factor_large (r : Nat) (hrp : r.Prime) (hrdvd : r ∣ p751) :
    p751 < r * r := by
  haveI : NeZero r := ⟨Nat.Prime.ne_zero hrp⟩
  haveI : NeZero p751 := ⟨by decide⟩
  have hpow : (zextMap p751 r zextD hrdvd alphaP) ^ (2 ^ 372 * 3 ^ 239) = 1 := by
    have h := congrArg (zextMap p751 r zextD hrdvd) powFull
    rwa [zpow_two_three, map_pow, map_one] at h
  have hunit : IsUnit (zextMap p751 r zextD hrdvd alphaP) :=
    isUnit_ofPowEqOne hpow (by positivity)
  have hu : (hunit.unit : Zext r zextD) = zextMap p751 r zextD hrdvd alphaP :=
    hunit.unit_spec
  have huord : orderOf hunit.unit ∣ 2 ^ 372 * 3 ^ 239 := by
    apply orderOf_dvd_of_pow_eq_one
    apply Units.ext
    rw [Units.val_pow_eq_pow_val, hu, Units.val_one]
    exact hpow
  have hnorm_route : ∀ w : Zext p751 zextD,
      zextMap p751 r zextD hrdvd w = 1 →
      Nat.gcd ((znorm (zsub1 w)).val) p751 = 1 → False := by
    intro w hw hgcd
    have hre : ZMod.castHom hrdvd (ZMod r) w.re = 1 := by
      have h := congrArg Zext.re hw
      rwa [zextMap_re, zext_one_re] at h
    have him : ZMod.castHom hrdvd (ZMod r) w.im = 0 := by
      have h := congrArg Zext.im hw
      rwa [zextMap_im, zext_one_im] at h
    have hnorm0 : ZMod.castHom hrdvd (ZMod r) (znorm (zsub1 w)) = 0 := by
      rw [znorm, zsub1_re, zsub1_im]
      simp only [map_sub, map_mul, map_one, map_natCast]
      rw [hre, him]
      ring
    have hv : (((znorm (zsub1 w)).val : Nat) : ZMod r) = 0 := by
      have h0 := hnorm0
      rw [ZMod.castHom_apply] at h0
      rw [ZMod.natCast_val]
      exact h0
    have hdvdv : r ∣ (znorm (zsub1 w)).val :=
      (ZMod.natCast_zmod_eq_zero_iff_dvd _ r).mp hv
    have hr1 : r ∣ 1 := hgcd ▸ Nat.dvd_gcd hdvdv hrdvd
    exact Nat.Prime.one_lt hrp |>.ne' (Nat.dvd_one.mp hr1)
  have hnot2 : ¬ orderOf hunit.unit ∣ 2 ^ 371 * 3 ^ 239 := by
    intro hdvd
    have h1 : hunit.unit ^ (2 ^ 371 * 3 ^ 239) = 1 :=
      orderOf_dvd_iff_pow_eq_one.mp hdvd
    have h2 := congrArg Units.val h1
    rw [Units.val_pow_eq_pow_val, hu, Units.val_one] at h2
    have h3 : zextMap p751 r zextD hrdvd tA4 = 1 := by
      rw [← powHalf, zpow_two_three, map_pow]
      exact h2
    exact hnorm_route tA4 h3 gcdHalf
  have hnot3 : ¬ orderOf hunit.unit ∣ 2 ^ 372 * 3 ^ 238 := by
    intro hdvd
    have h1 : hunit.unit ^ (2 ^ 372 * 3 ^ 238) = 1 :=
      orderOf_dvd_iff_pow_eq_one.mp hdvd
    have h2 := congrArg Units.val h1
    rw [Units.val_pow_eq_pow_val, hu, Units.val_one] at h2
    have h3 : zextMap p751 r zextD hrdvd uB4 = 1 := by
      rw [← powThird, zpow_two_three, map_pow]
      exact h2
    exact hnorm_route uB4 h3 gcdThird
  have hord : orderOf hunit.unit = 2 ^ 372 * 3 ^ 239 :=
    dvd_two_three_pow (by norm_num) (by norm_num) huord hnot2 hnot3
  have hle : orderOf hunit.unit ≤ Fintype.card (Zext r zextD)ˣ :=
    orderOf_le_card_univ
  have hle2 : Fintype.card (Zext r zextD)ˣ ≤ Fintype.card (Zext r zextD) :=
    Fintype.card_le_of_injective Units.val Units.ext
  have hcardz : Fintype.card (Zext r zextD) = r * r := by
    have e : Fintype.card (Zext r zextD) = Fintype.card (ZMod r × ZMod r) :=
      Fintype.card_congr
        ⟨fun x => (x.re, x.im), fun p => ⟨p.1, p.2⟩, fun _ => rfl, fun _ => rfl⟩
    rw [e, Fintype.card_prod, ZMod.card]
  have hfinal : 2 ^ 372 * 3 ^ 239 ≤ r * r := by
    rw [← hord, ← hcardz]
    exact le_trans hle hle2
  have hNp1 : p751 + 1 = 2 ^ 372 * 3 ^ 239 := by decide
  omega

/-- A composite n ≥ 2 has a prime factor p with p·p ≤ n (stated over a
symbolic n). -/
theorem exists_small_prime_factor {n : Nat} (hn : 2 ≤ n) (h : ¬ n.Prime) :
    ∃ p, p.Prime ∧ p ∣ n ∧ p * p ≤ n := by
  refine ⟨n.minFac, Nat.minFac_prime (by omega), Nat.minFac_dvd n, ?_⟩
  have h2 := Nat.minFac_sq_le_self (by omega) h
  have h3 : n.minFac ^ 2 = n.minFac * n.minFac := pow_two _
  omega

/-- p751 = 2^372·3^239 − 1 is prime. -/
theorem p751_prime : Nat.Prime p751 := by
  by_contra hnp
  obtain ⟨r, hrp, hrdvd, hrsq⟩ := exists_small_prime_factor (by decide) hnp
  exact absurd (p751_prime_factor_large r hrp hrdvd) (Nat.not_lt.mpr hrsq)

theorem natCast_ne_zero_of_lt {a : Nat} (h0 : 0 < a) (ha : a < p751) :
    (a : ZMod p751) ≠ 0 := by
  rw [Ne, ZMod.natCast_zmod_eq_zero_iff_dvd]
  intro hdvd
  exact absurd (Nat.le_of_dvd h0 hdvd) (Nat.not_le.mpr ha)

/-- C2: the fixed addition chain of `fpinv751_mont` computes exponentiation by
p751 − 2, so multiplying the inverse of a nonzero Montgomery element by the
element itself gives the Montgomery representation of 1 (its standard-domain
value is 1); in particular the inverse of 2 is (p751+1)/2. -/
theorem fpinv_mont_correct (a : Nat) (h0 : 0 < a) (ha : a < p751) :
    from_mont (fpmul751_mont (fpinv751_mont (to_mont a)) (to_mont a)) = 1 ∧
    from_mont (fpinv751_mont (to_mont 2)) = (p751 + 1) / 2 % p751 ∧
    from_mont (fpinv751_mont (to_mont a)) = a ^ (p751 - 2) % p751 := by
  haveI : Fact (Nat.Prime p751) := ⟨p751_prime⟩
  haveI : Fact (1 < p751) := ⟨by decide⟩
  haveI : NeZero p751 := ⟨by decide⟩
  have epred : p751 - 2 + 1 = p751 - 1 := by decide
  refine ⟨?_, ?_, ?_⟩
  · rw [from_mont_eq, mval_fpmul, mval_fpinv, mval_to_mont, ← pow_succ, epred,
      ZMod.pow_card_sub_one_eq_one (natCast_ne_zero_of_lt h0 ha), ZMod.val_one]
  · rw [from_mont_eq, mval_fpinv, mval_to_mont]
    have h2ne : ((2 : Nat) : ZMod p751) ≠ 0 :=
      natCast_ne_zero_of_lt (by norm_num) (by decide)
    have hferm : ((2 : Nat) : ZMod p751) ^ (p751 - 1) = 1 :=
      ZMod.pow_card_sub_one_eq_one h2ne
    have hpow2 : ((2 : Nat) : ZMod p751) ^ (p751 - 2) * ((2 : Nat) : ZMod p751)
        = 1 := by
      rw [← pow_succ, epred]
      exact hferm
    have he : ((p751 + 1) / 2) * 2 = p751 + 1 := by decide
    have hhalf : (((p751 + 1) / 2 : Nat) : ZMod p751) * ((2 : Nat) : ZMod p751)
        = 1 := by
      have hc : (((p751 + 1) / 2 * 2 : Nat) : ZMod p751) =
          ((p751 + 1 : Nat) : ZMod p751) :=
        congrArg (fun t : Nat => (t : ZMod p751)) he
      rw [Nat.cast_mul, Nat.cast_add, ZMod.natCast_self, Nat.cast_one,
        zero_add] at hc
      exact hc
    have hcancel : (((p751 + 1) / 2 : Nat) : ZMod p751) =
        ((2 : Nat) : ZMod p751) ^ (p751 - 2) :=
      mul_right_cancel₀ h2ne (hhalf.trans hpow2.symm)
    rw [← hcancel, ZMod.val_natCast]
  · rw [from_mont_eq, mval_fpinv, mval_to_mont, ← Nat.cast_pow, ZMod.val_natCast]

/-- Witness for C2 at a = 2. -/
theorem fpinv_mont_correct_witness :
    (0 < 2 ∧ 2 < p751) ∧
    (from_mont (fpmul751_mont (fpinv751_mont (to_mont 2)) (to_mont 2)) = 1 ∧
     from_mont (fpinv751_mont (to_mont 2)) = (p751 + 1) / 2 % p751 ∧
     from_mont (fpinv751_mont (to_mont 2)) = 2 ^ (p751 - 2) % p751) :=
  ⟨⟨by decide, by decide⟩, fpinv_mont_correct 2 (by decide) (by decide)⟩

theorem mval_fp2inv_1 (a : Nat × Nat) (h2 : a.2 ≤ p751) :
    mval (fp2inv751_mont a).1 =
      mval a.1 * (mval a.1 * mval a.1 + mval a.2 * mval a.2) ^ (p751 - 2) := by
  show mval (fpmul751_mont a.1 (fpinv751_mont
    (fpadd751 (fpsqr751_mont a.1) (fpsqr751_mont a.2)))) = _
  rw [mval_fpmul, mval_fpinv, mval_fpadd, mval_fpsqr, mval_fpsqr]

theorem mval_fp2inv_2 (a : Nat × Nat) (h2 : a.2 ≤ p751) :
    mval (fp2inv751_mont a).2 =
      -mval a.2 * (mval a.1 * mval a.1 + mval a.2 * mval a.2) ^ (p751 - 2) := by
  show mval (fpmul751_mont (fpneg751 a.2) (fpinv751_mont
    (fpadd751 (fpsqr751_mont a.1) (fpsqr751_mont a.2)))) = _
  rw [mval_fpmul, mval_fpinv, mval_fpadd, mval_fpsqr, mval_fpsqr,
    mval_fpneg a.2 h2]

/-- C7: for every reduced nonzero GF(p²) element in the Montgomery domain,
`fp2inv751_mont` followed by `fp2mul751_mont` with the original element gives
the extension-field identity — its standard-domain value is (1, 0); the norm
a0² + a1² is nonzero because p751 ≡ 3 mod 4 makes −1 a non-residue. -/
theorem fp2inv_mul_identity (a : Nat × Nat) (h1 : a.1 < p751)
    (h2 : a.2 < p751) (hnz : ¬(a.1 = 0 ∧ a.2 = 0)) :
    from_fp2mont (fp2mul751_mont (fp2inv751_mont a) a) = (1, 0) := by
  haveI : Fact (Nat.Prime p751) := ⟨p751_prime⟩
  haveI : Fact (1 < p751) := ⟨by decide⟩
  haveI : NeZero p751 := ⟨by decide⟩
  have hrho : (Rinv751 : ZMod p751) ≠ 0 := by
    intro hz
    have hR := R_Rinv_zmod
    rw [hz, mul_zero] at hR
    exact one_ne_zero hR.symm
  have hmv : ∀ x : Nat, 0 < x → x < p751 → mval x ≠ 0 := by
    intro x hx0 hxp
    exact mul_ne_zero (natCast_ne_zero_of_lt hx0 hxp) hrho
  have hSne : mval a.1 * mval a.1 + mval a.2 * mval a.2 ≠ 0 := by
    rcases Nat.eq_zero_or_pos a.2 with hz2 | hp2
    · have ha1 : 0 < a.1 := by
        rcases Nat.eq_zero_or_pos a.1 with hz1 | hp1
        · exact absurd ⟨hz1, hz2⟩ hnz
        · exact hp1
      have hu1 : mval a.1 ≠ 0 := hmv a.1 ha1 h1
      have hu2 : mval a.2 = 0 := by
        rw [hz2]
        simp [mval]
      rw [hu2]
      simpa using mul_ne_zero hu1 hu1
    · intro hS
      have hu2 : mval a.2 ≠ 0 := hmv a.2 hp2 h2
      have hsq : (mval a.1 * (mval a.2)⁻¹) * (mval a.1 * (mval a.2)⁻¹)
          = -1 := by
        have e1 : mval a.1 * mval a.1 = -(mval a.2 * mval a.2) := by
          linear_combination hS
        field_simp
        linear_combination e1
      have hsquare : IsSquare (-1 : ZMod p751) :=
        ⟨mval a.1 * (mval a.2)⁻¹, hsq.symm⟩
      rw [ZMod.exists_sq_eq_neg_one_iff] at hsquare
      exact hsquare (by decide)
  have hi1lt : (fp2inv751_mont a).1 < p751 := rdc_lt _
  have hi2lt : (fp2inv751_mont a).2 < p751 := rdc_lt _
  have epred : p751 - 2 + 1 = p751 - 1 := by decide
  have hferm := ZMod.pow_card_sub_one_eq_one hSne
  have hc0 : mval (fp2mul751_mont (fp2inv751_mont a) a).1 = 1 := by
    rw [mval_fp2mul_1 _ a hi1lt hi2lt h1 h2,
      mval_fp2inv_1 a (Nat.le_of_lt h2), mval_fp2inv_2 a (Nat.le_of_lt h2)]
    calc mval a.1 * (mval a.1 * mval a.1 + mval a.2 * mval a.2) ^ (p751 - 2)
          * mval a.1 -
        -mval a.2 * (mval a.1 * mval a.1 + mval a.2 * mval a.2) ^ (p751 - 2)
          * mval a.2
        = (mval a.1 * mval a.1 + mval a.2 * mval a.2) ^ (p751 - 2) *
            (mval a.1 * mval a.1 + mval a.2 * mval a.2) := by ring
      _ = (mval a.1 * mval a.1 + mval a.2 * mval a.2) ^ (p751 - 1) := by
          rw [← pow_succ, epred]
      _ = 1 := hferm
  have hc1 : mval (fp2mul751_mont (fp2inv751_mont a) a).2 = 0 := by
    rw [mval_fp2mul_2 _ a hi1lt hi2lt h1 h2,
      mval_fp2inv_1 a (Nat.le_of_lt h2), mval_fp2inv_2 a (Nat.le_of_lt h2)]
    ring
  show (from_mont (fp2mul751_mont (fp2inv751_mont a) a).1,
        from_mont (fp2mul751_mont (fp2inv751_mont a) a).2) = (1, 0)
  rw [from_mont_eq, from_mont_eq, hc0, hc1, ZMod.val_one, ZMod.val_zero]

/-- Witness for C7 at a = (2, 3). -/
theorem fp2inv_mul_identity_witness :
    (2 < p751 ∧ 3 < p751 ∧ ¬((2 : Nat) = 0 ∧ (3 : Nat) = 0)) ∧
    from_fp2mont (fp2mul751_mont (fp2inv751_mont (2, 3)) (2, 3)) = (1, 0) :=
  ⟨⟨by decide, by decide, by decide⟩,
   fp2inv_mul_identity (2, 3) (by decide) (by decide) (by decide)⟩
